import Mathlib

/-!
# Verification of the PC-BASIC cassette codec and screen-buffer engine

A shallow embedding, in Lean 4, of the core data structures and algorithms of
the `pcbasic` repository:

* `pcbasic/basic/display/display.py` — text page buffer with DBCS double-width
  marker maintenance (`TextPage.put_char_attr`), page copying
  (`TextBuffer.copy_page`), and the pixel page buffer with its two code paths
  (the plain-Python-list variant and the numpy variant) for pixel, interval and
  rectangle operations;
* `pcbasic/basic/devices/cassette.py` — the CRC-16-CCITT function, the
  block/record framing of the tape record protocol (`CassetteStream`), and the
  digital bit-stream codec (`TapeBitStream` / `CASBitStream`).

Python sequences are modelled as Lean lists.  Python integers are `Nat` (or
`Int` where negative values can reach an operation, since Python indexing
treats negative indices specially).  Machine-width arithmetic is explicit
(`% 256`, `&&& 0xffff`).  Fallible operations return `Option`/`Except`.
-/

namespace Py

/-- Effective index of the Python expression `l[i]` for a sequence of length
`n`: non-negative indices must be `< n`, negative indices count from the end
and must be `≥ -n`; anything else raises `IndexError` (modelled as `none`). -/
def idx (n : Nat) (i : Int) : Option Nat :=
  if 0 ≤ i then
    if i < (n : Int) then some i.toNat else none
  else
    if -(n : Int) ≤ i then some (i + n).toNat else none

/-- Python `l[i]` (possibly-raising scalar indexing). -/
def get (l : List α) (i : Int) : Option α :=
  (idx l.length i).bind (fun j => l.get? j)

/-- Clamped bound of a Python slice endpoint for a sequence of length `n`. -/
def sliceBound (n : Nat) (i : Int) : Nat :=
  if i < 0 then (max (i + n) 0).toNat else min i.toNat n

/-- Python slice `l[a:b]` (never raises; clamps both bounds). -/
def slice (l : List α) (a b : Int) : List α :=
  let a' := sliceBound l.length a
  let b' := sliceBound l.length b
  (l.drop a').take (b' - a')

/-- Python slice assignment `l[a:b] = xs` (never raises; may change the
length of the list). -/
def sliceAssign (l : List α) (a b : Int) (xs : List α) : List α :=
  let a' := sliceBound l.length a
  let b' := sliceBound l.length b
  l.take a' ++ xs ++ l.drop (max a' b')

/-- Collect a list of `Option`s, failing if any entry is `none` (models a
Python comprehension whose body may raise). -/
def optList : List (Option α) → Option (List α)
  | [] => some []
  | none :: _ => none
  | some a :: rest => (optList rest).map (fun l => a :: l)

/-- Python `range(a, b)` over `Int`. -/
def intRange (a b : Int) : List Int :=
  (List.range (b - a).toNat).map (fun (k : Nat) => a + (k : Int))

end Py

namespace PixelModel

/-!
## Pixel screen buffer (`PixelPage`, display.py)

The buffer is the 2-d list `PixelPage.buffer` (`[y][x]`, palette indices).
Both code paths of the source are modelled: functions with plain names follow
the plain-Python-list variant (the `else` branch of `if numpy:`), and the
`np`-prefixed functions model the numpy variant on the semantics numpy gives
to basic slicing (out-of-range slices clip; scalar indices raise
`IndexError`; assigning through a slice view cannot change its shape).
-/

/-- `PixelPage.get_pixel` (same shape in both variants):
`try: return self.buffer[y][x] except IndexError: return 0`. -/
def getPixel (buffer : List (List Nat)) (x y : Int) : Nat :=
  match Py.get buffer y with
  | none => 0
  | some row =>
    match Py.get row x with
    | none => 0
    | some a => a

/-- `PixelPage.put_pixel`:
`try: self.buffer[y][x] = attr except IndexError: pass`.
`self.buffer[y]` selects a row object; `row[x] = attr` mutates it in place. -/
def putPixel (buffer : List (List Nat)) (x y : Int) (attr : Nat) :
    List (List Nat) :=
  match Py.idx buffer.length y with
  | none => buffer
  | some j =>
    let row := buffer.getD j []
    match Py.idx row.length x with
    | none => buffer
    | some i => buffer.set j (row.set i attr)

/-- Plain-variant `PixelPage.get_rect`: the body of the `try`, a row
comprehension over scalar row indices (which raise `IndexError` past the
end) and column slices (which clip). -/
def getRectRows (buffer : List (List Nat)) (x0 x1 : Int) :
    List Int → Option (List (List Nat))
  | [] => some []
  | y :: ys =>
    match Py.get buffer y with
    | none => none
    | some row =>
      match getRectRows buffer x0 x1 ys with
      | none => none
      | some rest => some (Py.slice row x0 (x1 + 1) :: rest)

/-- Plain-variant `PixelPage.get_rect`:
`try: return [self.buffer[y][x0:x1+1] for y in range(y0, y1+1)]`
`except IndexError: return [[0]*(x1-x0+1) for _ in range(y1-y0+1)]`. -/
def getRect (buffer : List (List Nat)) (x0 y0 x1 y1 : Int) : List (List Nat) :=
  match getRectRows buffer x0 x1 (Py.intRange y0 (y1 + 1)) with
  | some rows => rows
  | none => List.replicate (y1 - y0 + 1).toNat (List.replicate (x1 - x0 + 1).toNat 0)

/-- numpy-variant `PixelPage.get_rect`: `numpy.array(self.buffer[y0:y1+1,
x0:x1+1])` — basic slicing clips to the array bounds and never raises, so
the `except IndexError` branch of the source is dead and the result is the
(copied) clipped sub-array. -/
def npGetRect (buffer : List (List Nat)) (x0 y0 x1 y1 : Int) : List (List Nat) :=
  (Py.slice buffer y0 (y1 + 1)).map (fun row => Py.slice row x0 (x1 + 1))

/-- numpy-variant `PixelPage.fill_rect`: early return on an empty rectangle,
then `self.buffer[y0:y1+1, x0:x1+1].fill(attr)` — filling the clipped view
writes exactly the in-bounds intersection and cannot raise. -/
def npFillRect (buffer : List (List Nat)) (x0 y0 x1 y1 : Int) (attr : Nat) :
    List (List Nat) :=
  if x1 < x0 ∨ y1 < y0 then buffer else
  let ly := Py.sliceBound buffer.length y0
  let hy := Py.sliceBound buffer.length (y1 + 1)
  buffer.mapIdx (fun r row =>
    if ly ≤ r ∧ r < hy then
      let lx := Py.sliceBound row.length x0
      let hx := Py.sliceBound row.length (x1 + 1)
      row.mapIdx (fun c a => if lx ≤ c ∧ c < hx then attr else a)
    else row)

/-- Plain-variant `PixelPage.put_interval`.  Faithful to the source: the
masked merge is performed *only when* `mask != 0xff`; the function returns
the (possibly updated) buffer together with the returned scanline slice.
`none` models an uncaught `IndexError` from the scalar indices. -/
def putInterval (buffer : List (List Nat)) (x y : Int) (colours : List Nat)
    (mask : Nat) : Option (List (List Nat) × List Nat) :=
  match Py.idx buffer.length y with
  | none => none
  | some j =>
    let row := buffer.getD j []
    if mask ≠ 0xff then
      let invMask := 0xff ^^^ mask
      match Py.optList (colours.mapIdx (fun i c =>
          (Py.get row (x + (i : Int))).map
            (fun old => (c &&& mask) ||| (old &&& invMask)))) with
      | none => none
      | some merged =>
        let row' := Py.sliceAssign row x (x + colours.length) merged
        some (buffer.set j row', Py.slice row' x (x + colours.length))
    else
      some (buffer, Py.slice row x (x + colours.length))

/-- numpy-variant `PixelPage.put_interval` on arguments where the interval
fits in the row (the claims only exercise that case; out-of-bounds slices
would make numpy's in-place `&=`/`|=` fail on shape mismatch): mask the
colours, clear the masked bits of the destination slice, or the colours in,
and return the updated slice. -/
def npPutInterval (buffer : List (List Nat)) (x y : Int) (colours : List Nat)
    (mask : Nat) : Option (List (List Nat) × List Nat) :=
  match Py.idx buffer.length y with
  | none => none
  | some j =>
    let row := buffer.getD j []
    let invMask := 0xff ^^^ mask
    match Py.optList (colours.mapIdx (fun i c =>
        (Py.get row (x + (i : Int))).map
          (fun old => (old &&& invMask) ||| (c &&& mask)))) with
    | none => none
    | some merged =>
      let row' := Py.sliceAssign row x (x + colours.length) merged
      some (buffer.set j row', merged)

/-- One iteration of the plain-variant `PixelPage.move_rect` loop:
`row = buffer[sy][sx0:sx1+1]; buffer[sy][sx0:sx1+1] = [0]*(sx1-sx0+1);`
`buffer[ty][tx0:tx0+(sx1-sx0+1)] = row`. -/
def moveRectStep (sx0 sx1 tx0 : Int) (sy ty : Int) (buffer : List (List Nat)) :
    Option (List (List Nat)) :=
  match Py.idx buffer.length sy with
  | none => none
  | some js =>
    let srow := buffer.getD js []
    let rowVals := Py.slice srow sx0 (sx1 + 1)
    let srow' := Py.sliceAssign srow sx0 (sx1 + 1)
        (List.replicate (sx1 + 1 - sx0).toNat 0)
    let buffer1 := buffer.set js srow'
    match Py.idx buffer1.length ty with
    | none => none
    | some jt =>
      let trow := buffer1.getD jt []
      some (buffer1.set jt
        (Py.sliceAssign trow tx0 (tx0 + (sx1 - sx0 + 1)) rowVals))

/-- Plain-variant `PixelPage.move_rect`: the loop
`for y in range(0, sy1-sy0+1)` over `moveRectStep`, with no protection
against the target rows overlapping later source rows. -/
def moveRect (buffer : List (List Nat)) (sx0 sy0 sx1 sy1 tx0 ty0 : Int) :
    Option (List (List Nat)) :=
  (Py.intRange 0 (sy1 - sy0 + 1)).foldlM
    (fun buf y => moveRectStep sx0 sx1 tx0 (sy0 + y) (ty0 + y) buf) buffer

/-- Reference semantics of `move_rect` as the specification words it: first
copy the whole source block to a temporary buffer, then zero the source
area, then write the temporary buffer at the target. -/
def moveRectTemp (buffer : List (List Nat)) (sx0 sy0 sx1 sy1 tx0 ty0 : Int) :
    Option (List (List Nat)) := do
  let ys := Py.intRange 0 (sy1 - sy0 + 1)
  -- phase 1: copy the source block out
  let temp ← ys.mapM (fun y => do
    let js ← Py.idx buffer.length (sy0 + y)
    pure (Py.slice (buffer.getD js []) sx0 (sx1 + 1)))
  -- phase 2: zero the source area
  let buffer1 ← ys.foldlM (fun (buf : List (List Nat)) y => do
    let js ← Py.idx buf.length (sy0 + y)
    pure (buf.set js (Py.sliceAssign (buf.getD js []) sx0 (sx1 + 1)
      (List.replicate (sx1 + 1 - sx0).toNat 0)))) buffer
  -- phase 3: write the temporary buffer at the target
  (ys.zip temp).foldlM (fun (buf : List (List Nat)) yrow => do
    let jt ← Py.idx buf.length (ty0 + yrow.1)
    pure (buf.set jt (Py.sliceAssign (buf.getD jt [])
      tx0 (tx0 + (sx1 - sx0 + 1)) yrow.2))) buffer1

/-- numpy-variant `PixelPage.move_rect` (on in-bounds rectangles, where the
assigned shapes match): `area = numpy.array(buffer[sy0:sy1+1, sx0:sx1+1])`
(a copy), then the source region is assigned zeros, then the target region
is assigned `area`. -/
def npMoveRect (buffer : List (List Nat)) (sx0 sy0 sx1 sy1 tx0 ty0 : Int) :
    List (List Nat) :=
  let w := (sx1 - sx0 + 1).toNat
  let h := (sy1 - sy0 + 1).toNat
  let area := npGetRect buffer sx0 sy0 sx1 sy1
  let zeroed := buffer.mapIdx (fun r row =>
    if Py.sliceBound buffer.length sy0 ≤ r ∧
        r < Py.sliceBound buffer.length (sy1 + 1) then
      Py.sliceAssign row sx0 (sx1 + 1) (List.replicate w 0)
    else row)
  zeroed.mapIdx (fun r row =>
    if Py.sliceBound zeroed.length ty0 ≤ r ∧
        r < Py.sliceBound zeroed.length (ty0 + h) then
      Py.sliceAssign row tx0 (tx0 + w)
        (area.getD (r - Py.sliceBound zeroed.length ty0) [])
    else row)

end PixelModel

namespace TextModel

/-!
## Text screen buffer (`TextRow`, `TextPage`, `TextBuffer`, display.py)

Characters are bytes (`Nat`), attributes are `Nat`.  The codepage object is
modelled by its four members used here: the `dbcs` flag, the `lead` and
`trail` byte sets (as predicates), the `box_protect` flag and the
`connects` test for box-drawing characters.
-/

structure Codepage where
  dbcs : Bool
  lead : Nat → Bool
  trail : Nat → Bool
  boxProtect : Bool
  connects : Nat → Nat → Nat → Bool

/-- `TextRow`: cell buffer, double-width markers (0 none / 1 lead / 2 trail),
last non-whitespace column (`end` in the source) and wrap flag. -/
structure TextRow where
  buf : List (Nat × Nat)
  double : List Nat
  rowEnd : Nat
  wrap : Bool

/-- A fresh `TextRow battr bwidth`: spaces, no markers, unwrapped. -/
def TextRow.fresh (battr bwidth : Nat) : TextRow :=
  { buf := List.replicate bwidth (32, battr)
    double := List.replicate bwidth 0
    rowEnd := 0
    wrap := false }

def emptyRow : TextRow := ⟨[], [], 0, false⟩

structure TextPage where
  rows : List TextRow
  width : Nat
  height : Nat
  pagenum : Nat
  doDbcs : Bool
  codepage : Codepage

/-- A fresh `TextPage`. -/
def TextPage.fresh (battr bwidth bheight pagenum : Nat) (doDbcs : Bool)
    (cp : Codepage) : TextPage :=
  { rows := List.replicate bheight (TextRow.fresh battr bwidth)
    width := bwidth
    height := bheight
    pagenum := pagenum
    doDbcs := doDbcs
    codepage := cp }

/-- Python `l[i]` with wrap-around for negative indices, defaulting instead
of raising (the box-drawing pass below can reach index `-2`, which for the
row widths of interest wraps around; the raising edge case of a width-1 row
is not modelled). -/
def pyGetD (l : List α) (dflt : α) (i : Int) : α :=
  match Py.get l i with
  | some a => a
  | none => dflt

/-- Python `l[i] = a` with wrap-around for negative indices, ignoring
out-of-range writes (same proviso as `pyGetD`). -/
def pySetW (l : List α) (i : Int) (a : α) : List α :=
  match Py.idx l.length i with
  | some j => l.set j a
  | none => l

/-- The forward rescan loop of `TextPage.put_char_attr` (the
`while ccol < self.width` loop): walks right from column `ccol` (1-based),
marking lead/trail pairs and clearing stale markers, stopping at the end of
the row, at a stable previously-marked boundary beyond the written column,
or (with `one_only`) as soon as the written column has been passed.
Returns the updated marker array and refresh range. -/
def dbcsScan (cp : Codepage) (width origCol : Nat) (oneOnly : Bool)
    (buf : List (Nat × Nat)) (ccol : Nat) (double : List Nat)
    (start stop : Int) : List Nat × Int × Int :=
  if h : ccol < width then
    let c := (buf.getD (ccol - 1) (0, 0)).1
    let d := (buf.getD ccol (0, 0)).1
    if cp.lead c && cp.trail d then
      if double.getD (ccol - 1) 0 = 1 ∧ double.getD ccol 0 = 2 ∧ origCol < ccol then
        (double, start, stop)
      else
        let double' := (double.set (ccol - 1) 1).set ccol 2
        let start' := min start (ccol : Int)
        let stop' := max stop ((ccol : Int) + 2)
        if width ≤ ccol + 2 ∨ (oneOnly = true ∧ origCol < ccol + 2) then
          (double', start', stop')
        else
          dbcsScan cp width origCol oneOnly buf (ccol + 2) double' start' stop'
    else
      if double.getD (ccol - 1) 0 = 0 ∧ origCol < ccol then
        (double, start, stop)
      else
        let double' := double.set (ccol - 1) 0
        let start' := min start (ccol : Int)
        let stop' := max stop ((ccol : Int) + 1)
        if width ≤ ccol + 1 ∨ (oneOnly = true ∧ origCol < ccol + 1) then
          (double', start', stop')
        else
          dbcsScan cp width origCol oneOnly buf (ccol + 1) double' start' stop'
  else (double, start, stop)
termination_by width - ccol

/-- The box-drawing protection pass of `TextPage.put_char_attr`
(`if self.codepage.box_protect:`): scan a neighbourhood of the refresh
range for runs of connecting box-drawing characters and clear any
double-width markers that would interrupt such a run.  Python's negative
indices (reachable here, since the scan starts at `start - 2`) wrap around
per `pyGetD`/`pySetW`. -/
def boxScan (cp : Codepage) (width : Nat) (buf : List (Nat × Nat)) :
    Int → Int → Nat → List Nat → Int → Int → List Nat × Int × Int
  | ccol, bset, connecting, double, start, stop =>
    if h : ccol < stop + 2 ∧ ccol < (width : Int) then
      let c := (pyGetD buf (0, 0) (ccol - 1)).1
      let d := (pyGetD buf (0, 0) ccol).1
      let s1 : Int × Nat :=
        if -1 < bset ∧ cp.connects c d bset.toNat then (bset, connecting + 1)
        else (-1, 0)
      let s2 : Int × Nat :=
        if s1.1 = -1 then
          if cp.connects c d 1 then (1, 1)
          else if cp.connects c d 0 then (0, 1)
          else s1
        else s1
      let res :=
        if 2 ≤ s2.2 then
          let d1 := pySetW double ccol 0
          let d2 := pySetW d1 (ccol - 1) 0
          let d3 := pySetW d2 (ccol - 2) 0
          let start1 := min start (ccol - 1)
          let fix3 :=
            if 2 < ccol ∧ pyGetD d3 0 (ccol - 3) = 1 then
              (pySetW d3 (ccol - 3) 0, min start1 (ccol - 2))
            else (d3, start1)
          let fixR :=
            if ccol < (width : Int) - 1 ∧ pyGetD fix3.1 0 (ccol + 1) = 2 then
              (pySetW fix3.1 (ccol + 1) 0, max stop (ccol + 2))
            else (fix3.1, stop)
          (fixR.1, fix3.2, fixR.2)
        else (double, start, stop)
      boxScan cp width buf (ccol + 1) s2.1 s2.2 res.1 res.2.1 res.2.2
    else (double, start, stop)
termination_by ccol _ _ _ _ _ => ((width : Int) - ccol).toNat
decreasing_by have h2 := h.2; omega

/-- `TextPage.put_char_attr(crow, ccol, c, cattr, one_only, force)`:
write the cell, zero its marker, then (when DBCS is active) step back one
column if the previous column may now form a pair, rescan forward with
`dbcsScan`, and run the box-protection pass.  Rows and columns are 1-based;
the caller keeps them within the page (as in the source, where
out-of-range values would raise).  Returns the page and the refresh range
`(start, stop)`. -/
def putCharAttr (page : TextPage) (crow ccol : Nat) (c cattr : Nat)
    (oneOnly force : Bool) : TextPage × Int × Int :=
  let row0 := page.rows.getD (crow - 1) emptyRow
  let buf1 := row0.buf.set (ccol - 1) (c, cattr)
  let start : Int := ccol
  let stop : Int := ccol + 1
  let double1 := row0.double.set (ccol - 1) 0
  if page.codepage.dbcs && page.doDbcs then
    let origCol := ccol
    let stepback :=
      if 1 < ccol ∧ double1.getD (ccol - 2) 0 ≠ 2 ∧
          (page.codepage.trail (buf1.getD (ccol - 1) (0, 0)).1 = true ∨
           page.codepage.lead (buf1.getD (ccol - 2) (0, 0)).1 = true) then
        (ccol - 1, start - 1)
      else (ccol, start)
    let scanned :=
      dbcsScan page.codepage page.width origCol oneOnly buf1
        stepback.1 double1 stepback.2 stop
    let final :=
      if page.codepage.boxProtect then
        boxScan page.codepage page.width buf1 (scanned.2.1 - 2) (-1) 0
          scanned.1 scanned.2.1 scanned.2.2
      else scanned
    let row' := { row0 with buf := buf1, double := final.1 }
    ({ page with rows := page.rows.set (crow - 1) row' }, final.2.1, final.2.2)
  else
    let row' := { row0 with buf := buf1, double := double1 }
    ({ page with rows := page.rows.set (crow - 1) row' }, start, stop)

structure TextBuffer where
  pages : List TextPage
  width : Nat
  height : Nat

def emptyPage : TextPage :=
  ⟨[], 0, 0, 0, false, ⟨false, fun _ => false, fun _ => false, false,
    fun _ _ _ => false⟩⟩

/-- One row of `TextBuffer.copy_page`: `dstrow.buf[:] = srcrow.buf[:];`
`dstrow.end = srcrow.end; dstrow.wrap = srcrow.wrap` — note the `double`
marker array of the destination row is *not* copied. -/
def copyRowInto (src dst : TextRow) : TextRow :=
  { dst with buf := src.buf, rowEnd := src.rowEnd, wrap := src.wrap }

/-- `TextBuffer.copy_page(src, dst)`: copy every row's cells, end marker and
wrap flag (`for x in range(self.height)`). -/
def copyPage (b : TextBuffer) (src dst : Nat) : TextBuffer :=
  let srcPage := b.pages.getD src emptyPage
  let dstPage := b.pages.getD dst emptyPage
  let rows' := (List.range b.height).foldl (fun rows x =>
      rows.set x (copyRowInto (srcPage.rows.getD x emptyRow)
        (rows.getD x emptyRow))) dstPage.rows
  { b with pages := b.pages.set dst { dstPage with rows := rows' } }

/-- Apply `put_char_attr` on page `pagenum` of a `TextBuffer` (how the
display orchestrator drives the buffer). -/
def bufferPut (b : TextBuffer) (pagenum crow ccol c cattr : Nat)
    (oneOnly force : Bool) : TextBuffer :=
  let page := b.pages.getD pagenum emptyPage
  { b with pages :=
      b.pages.set pagenum (putCharAttr page crow ccol c cattr oneOnly force).1 }

end TextModel

namespace Cassette

/-!
## Cassette tape device (cassette.py)

The tape is a finite list of bits (`List Nat`, values 0/1 as produced by
`CASBitStream.read_bit`).  Reading functions consume a prefix and return the
rest; end of the list is end of tape.  Errors mirror the source's exception
taxonomy (`EndOfTape`, `CRCError`, `PulseError`).
-/

inductive TapeErr where
  | endOfTape
  | crcError
  | pulseError
deriving DecidableEq, Repr

/-- The five file types: Data, Memory, Protected, Ascii, tokenised Basic. -/
inductive Filetype where
  | D
  | M
  | P
  | A
  | B
deriving DecidableEq, Repr

/-- `TYPE_TO_TOKEN`: built by reversing `TOKEN_TO_TYPE`, whose insertion
order maps `P` to `0xa0` and then to `0x20`, the later entry winning. -/
def typeToToken : Filetype → Nat
  | .D => 0x00
  | .M => 0x01
  | .P => 0x20
  | .A => 0x40
  | .B => 0x80

/-- `TOKEN_TO_TYPE` (a `KeyError` is `none`; the source then merely logs and
keeps the previous file type). -/
def tokenToType : Nat → Option Filetype
  | 0x00 => some .D
  | 0x01 => some .M
  | 0xa0 => some .P
  | 0x20 => some .P
  | 0x40 => some .A
  | 0x80 => some .B
  | _ => none

/-- `self.filetype in (b'M', b'B', b'P')`: the binary-typed records, carried
as one multi-block record. -/
def Filetype.isBinary : Filetype → Bool
  | .M => true
  | .B => true
  | .P => true
  | _ => false

/-- One shift of the CRC register: `rem <<= 1; if rem & 0x10000:`
`rem ^= 0x1021; rem &= 0xffff` (from `crc`, cassette.py). -/
def crcStep (rem : Nat) : Nat :=
  let r := rem <<< 1
  let r' := if r &&& 0x10000 ≠ 0 then r ^^^ 0x1021 else r
  r' &&& 0xffff

/-- One byte of the CRC loop: `rem ^= d << 8` followed by eight shifts. -/
def crcByteStep (rem d : Nat) : Nat := crcStep^[8] (rem ^^^ (d <<< 8))

/-- `crc(data)`: CRC-16-CCITT, initial register `0xFFFF`, final XOR
`0xFFFF`, MSB-first, byte at a time. -/
def crc (data : List Nat) : Nat := (data.foldl crcByteStep 0xffff) ^^^ 0xffff

/-- Padding of a short block: `data += data[-1:]*(256-len(data))` — the
block is filled out to 256 bytes by repeating its own last byte (an empty
`data` stays empty, as `data[-1:]` is then empty). -/
def padBlock (data : List Nat) : List Nat :=
  data ++ (match data.getLast? with
    | some b => List.replicate (256 - data.length) b
    | none => [])

/-- `CassetteStream._write_block`, at byte granularity: the byte sequence
handed to the bit stream — the padded block followed by the CRC.
`struct.pack('<H', crc_word)` yields `(lo, hi)`; the source then writes
`hi` first, i.e. the CRC goes out big-endian. -/
def writeBlockBytes (data : List Nat) : List Nat :=
  let padded := padBlock data
  let crcWord := crc padded
  padded ++ [crcWord / 256 % 256, crcWord % 256]

/-- `TapeBitStream.write_byte`: MSB first, one bit per framing unit
(`1 if byte & (128 >> i) else 0`). -/
def bitsOfByte (b : Nat) : List Nat :=
  (List.range 8).map (fun i => if b &&& (128 >>> i) ≠ 0 then 1 else 0)

def bitsOfBytes (bs : List Nat) : List Nat := (bs.map bitsOfByte).flatten

/-- `TapeBitStream.read_byte`'s reassembly: `byte += bit * 128 >> i` over
eight bits. -/
def byteOfBits (bits : List Nat) : Nat :=
  (List.range 8).foldl (fun byte i => byte + ((bits.getD i 0 * 128) >>> i)) 0

/-- `TapeBitStream.read_byte` on the digital stream: consume eight bits, or
fail (`EndOfTape` mid-byte) if fewer remain. -/
def readByte (bits : List Nat) : Option (Nat × List Nat) :=
  if 8 ≤ bits.length then some (byteOfBits (bits.take 8), bits.drop 8) else none

/-- The `while self.read_bit() != 1: pass` loop of `read_leader`: skip to
just past the first 1 bit. -/
def skipToOne : List Nat → Option (List Nat)
  | [] => none
  | b :: rest => if b = 1 then some rest else skipToOne rest

/-- The counting loop of `read_leader`: count consecutive 1 bits, consuming
also the first non-1 bit. -/
def countOnes : List Nat → Nat → Option (Nat × List Nat)
  | [], _ => none
  | b :: rest, k => if b = 1 then countOnes rest (k + 1) else some (k, rest)

theorem skipToOne_length {bits r : List Nat} (h : skipToOne bits = some r) :
    r.length < bits.length := by
  induction bits with
  | nil => simp [skipToOne] at h
  | cons b rest ih =>
    by_cases hb : b = 1
    · simp only [skipToOne, hb, if_pos] at h
      simp only [Option.some_inj] at h
      simp [← h]
    · simp only [skipToOne, hb, if_neg, not_false_iff] at h
      have := ih h
      simp only [List.length_cons]
      omega

theorem countOnes_length {bits r : List Nat} {k c : Nat}
    (h : countOnes bits k = some (c, r)) : r.length < bits.length := by
  induction bits generalizing k with
  | nil => simp [countOnes] at h
  | cons b rest ih =>
    by_cases hb : b = 1
    · simp only [countOnes, hb, if_pos] at h
      have := ih h
      simp only [List.length_cons]
      omega
    · simp only [countOnes, hb, if_neg, not_false_iff, Option.some_inj,
        Prod.mk.injEq] at h
      simp [← h.2]

theorem readByte_length {bits r : List Nat} {s : Nat}
    (h : readByte bits = some (s, r)) : r.length + 8 ≤ bits.length := by
  unfold readByte at h
  split at h
  · next hle =>
    simp at h
    simp [← h.2, List.length_drop]; omega
  · simp at h

/-- `TapeBitStream.read_leader` on the digital stream: skip to a 1 bit,
count the run of 1s; once a non-1 framing unit arrives, if the run was long
enough (`counter >= 512` after the first 1 was consumed by the skip loop),
read the sync byte and succeed on `0x16`; otherwise — and on a sync byte
mismatch — restart the search.  End of tape returns `none` (`False`). -/
def readLeader (bits : List Nat) : Option (List Nat) :=
  match h1 : skipToOne bits with
  | none => none
  | some r1 =>
    match h2 : countOnes r1 0 with
    | none => none
    | some (counter, r2) =>
      if 512 ≤ counter then
        match h3 : readByte r2 with
        | none => none
        | some (sync, r3) =>
          if sync = 22 then some r3 else readLeader r3
      else readLeader r2
termination_by bits.length
decreasing_by
  · have a1 := skipToOne_length h1
    have a2 := countOnes_length h2
    have a3 := readByte_length h3
    omega
  · have a1 := skipToOne_length h1
    have a2 := countOnes_length h2
    omega

/-- `TapeBitStream.write_leader`: 256 bytes `0xFF`, one 0 bit, sync byte. -/
def writeLeaderBits : List Nat :=
  bitsOfBytes (List.replicate 256 0xff) ++ [0] ++ bitsOfByte 0x16

/-- `TapeBitStream.write_trailer`: 30 one-bits and a zero bit. -/
def writeTrailerBits : List Nat := List.replicate 30 1 ++ [0]

/-- `TapeBitStream.read_trailer`: `while self.read_bit() == 1: pass`,
swallowing `EndOfTape`. -/
def readTrailer : List Nat → List Nat
  | [] => []
  | b :: rest => if b = 1 then readTrailer rest else rest

/-- `TapeBitStream.write_intro` payload: `b'PC-BASIC tape\x1a'` followed by
seven 0 bits (the 100 ms pause is silent in a CAS image). -/
def introBits : List Nat :=
  bitsOfBytes [80, 67, 45, 66, 65, 83, 73, 67, 32, 116, 97, 112, 101, 26] ++
    List.replicate 7 0

/-- The blocks of `CassetteStream._write_record`, at byte granularity:
`while len(data) > 0: self._write_block(data[:256]); data = data[256:]`. -/
def recordBlockBytes (data : List Nat) : List Nat :=
  if h : data = [] then []
  else writeBlockBytes (data.take 256) ++ recordBlockBytes (data.drop 256)
termination_by data.length
decreasing_by
  have : data.length ≠ 0 := fun hl => h (List.eq_nil_of_length_eq_zero hl)
  simp [List.length_drop]; omega

/-- `CassetteStream._write_record`: leader, blocks, trailer (the 100 ms
pause after the record is silent in a CAS image). -/
def writeRecordBits (data : List Nat) : List Nat :=
  writeLeaderBits ++ bitsOfBytes (recordBlockBytes data) ++ writeTrailerBits

/-- `struct.pack('<H', n)` as a byte list. -/
def le16 (n : Nat) : List Nat := [n % 256, n / 256 % 256]

/-- The header record of `CassetteStream.open_write`:
`struct.pack('<c8sBHHHBB', b'\xa5', name[:8] + b' '*(8-len(name)),`
`TYPE_TO_TOKEN[filetype], length, seg, offs, 0, 1)`. -/
def headerBytes (name : List Nat) (ft : Filetype) (length seg offs : Nat) :
    List Nat :=
  0xa5 :: (name.take 8 ++ List.replicate (8 - name.length) 32) ++
    typeToToken ft :: (le16 length ++ le16 seg ++ le16 offs ++ [0, 1])

/-- The mutable session state relevant to `open_write`: the
`self.last = seg, offs, length` triple remembered from the most recent
binary-typed write (initialised to `0, 0, 0` in `__init__`). -/
structure StreamState where
  last : Nat × Nat × Nat

def initState : StreamState := ⟨(0, 0, 0)⟩

/-- `CassetteStream.open_write`: for `A`/`D` files the supplied
seg/offs/length are discarded and replaced by `self.last`; for the others
they are written and become the new `self.last`.  Returns the new state and
the bits of the header record. -/
def openWrite (st : StreamState) (name : List Nat) (ft : Filetype)
    (seg offs len : Nat) : StreamState × List Nat :=
  let textType := ft = .A ∨ ft = .D
  let vals := if textType then st.last else (seg, offs, len)
  let st' := if textType then st else ⟨(seg, offs, len)⟩
  (st', writeRecordBits (headerBytes name ft vals.2.2 vals.1 vals.2.1))

/-- The chunking loop of `CassetteStream._flush_record_buffer`: split off
255-byte chunks while at least 255 bytes remain, returning the chunks and
the remainder (which stays in the record buffer). -/
def flushChunks (data : List Nat) : List (List Nat) × List Nat :=
  if h : data.length < 255 then ([], data)
  else
    let res := flushChunks (data.drop 255)
    (data.take 255 :: res.1, res.2)
termination_by data.length
decreasing_by simp [List.length_drop]; omega

/-- The bits written for the buffered payload by the final
`CassetteStream.close` (`_flush_record_buffer` + `_close_record_buffer`),
after a single `write(payload)`:  binary-typed files go out as one
multi-block record; text-typed files go out as 256-byte records `0 + chunk`
for each full 255-byte chunk, then — if bytes remain — a final record whose
first byte is the remaining byte count. -/
def closeBits (ft : Filetype) (payload : List Nat) : List Nat :=
  if ft.isBinary then writeRecordBits payload
  else
    let fc := flushChunks payload
    ((fc.1.map (fun chunk => writeRecordBits (0 :: chunk))).flatten) ++
      (if fc.2 ≠ [] then writeRecordBits (fc.2.length :: fc.2) else [])

/-- A fresh CAS image holding one file written through the protocol:
intro noise, the header record of `open_write`, then the payload records of
`write(payload); close()`.  (Reading back starts from position zero, i.e.
from the intro.) -/
def casWriteImage (name : List Nat) (ft : Filetype) (seg offs len : Nat)
    (payload : List Nat) : List Nat :=
  introBits ++ (openWrite initState name ft seg offs len).2 ++
    closeBits ft payload

/-- Read `n` bytes from the bit stream. -/
def readNBytes : Nat → List Nat → Option (List Nat × List Nat)
  | 0, bits => some ([], bits)
  | n + 1, bits =>
    match readByte bits with
    | none => none
    | some (b, rest) =>
      match readNBytes n rest with
      | none => none
      | some (bs, r2) => some (b :: bs, r2)

theorem readNBytes_length {n : Nat} {bits bs r : List Nat}
    (h : readNBytes n bits = some (bs, r)) : r.length ≤ bits.length := by
  induction n generalizing bits bs with
  | zero =>
    simp only [readNBytes, Option.some_inj, Prod.mk.injEq] at h
    simp [← h.2]
  | succ m ih =>
    simp only [readNBytes] at h
    split at h
    · exact absurd h (by simp)
    · next b rest heq =>
      split at h
      · exact absurd h (by simp)
      · next bs2 r2 heq2 =>
        simp only [Option.some_inj, Prod.mk.injEq] at h
        obtain ⟨-, h2r⟩ := h
        subst h2r
        have h1 := readByte_length heq
        have h2 := ih heq2
        omega

/-- `CassetteStream._read_block`: 256 data bytes, two CRC bytes
(`crc_given = bytes0 * 0x100 + bytes1`), `CRCError` on mismatch. -/
def readBlockB (bits : List Nat) : Except TapeErr (List Nat × List Nat) :=
  match readNBytes 256 bits with
  | none => .error .endOfTape
  | some (data, r1) =>
    match readNBytes 2 r1 with
    | none => .error .endOfTape
    | some (cb, r2) =>
      let crcGiven := cb.getD 0 0 * 0x100 + cb.getD 1 0
      if crcGiven = crc data then .ok (data, r2) else .error .crcError

theorem readBlockB_length {bits d r : List Nat}
    (h : readBlockB bits = .ok (d, r)) : r.length ≤ bits.length := by
  unfold readBlockB at h
  split at h
  · exact absurd h (by simp)
  · next data r1 heq =>
    split at h
    · exact absurd h (by simp)
    · next cb r2 heq2 =>
      simp only [] at h
      split at h
      · simp only [Except.ok.injEq, Prod.mk.injEq] at h
        obtain ⟨-, hr⟩ := h
        subst hr
        have h1 := readNBytes_length heq
        have h2 := readNBytes_length heq2
        omega
      · exact absurd h (by simp)

theorem readTrailer_length (bits : List Nat) :
    (readTrailer bits).length ≤ bits.length := by
  induction bits with
  | nil => simp [readTrailer]
  | cons b rest ih =>
    by_cases hb : b = 1
    · simp only [readTrailer, hb, if_pos]
      simp only [List.length_cons]
      omega
    · simp only [readTrailer, hb, if_neg, not_false_iff]
      simp only [List.length_cons]
      omega

theorem readLeader_some_length : ∀ (n : Nat) {bits r : List Nat},
    bits.length ≤ n → readLeader bits = some r → r.length < bits.length := by
  intro n
  induction n with
  | zero =>
    intro bits r hlen h
    have : bits = [] := List.eq_nil_of_length_eq_zero (by omega)
    subst this
    simp [readLeader, skipToOne] at h
  | succ m ih =>
    intro bits r hlen h
    rw [readLeader] at h
    split at h
    · exact absurd h (by simp)
    · next r1 h1 =>
      split at h
      · exact absurd h (by simp)
      · next counter r2 h2 =>
        have a1 := skipToOne_length h1
        have a2 := countOnes_length h2
        split at h
        · split at h
          · exact absurd h (by simp)
          · next sync r3 h3 =>
            have a3 := readByte_length h3
            split at h
            · simp only [Option.some_inj] at h
              subst h
              omega
            · have := ih (by omega) h
              omega
        · have := ih (by omega) h
          omega

/-- The block-reading loop of `CassetteStream._read_record` for a given
record length: `while byte_count < reclen`, tracked here as the remaining
byte count (each block contributes 256 bytes). -/
def readRecordBlocks (remaining : Nat) (bits : List Nat) :
    Except TapeErr (List Nat × List Nat) :=
  if remaining = 0 then .ok ([], bits)
  else
    match readBlockB bits with
    | .error e => .error e
    | .ok (data, rest) =>
      (readRecordBlocks (remaining - 256) rest).map
        (fun rc => (data ++ rc.1, rc.2))
termination_by remaining
decreasing_by omega

theorem readRecordBlocks_length : ∀ {n : Nat} {bits rc r : List Nat},
    readRecordBlocks n bits = .ok (rc, r) → r.length ≤ bits.length := by
  intro n
  induction n using Nat.strong_induction_on with
  | _ n ih =>
    intro bits rc r h
    unfold readRecordBlocks at h
    split at h
    · simp only [Except.ok.injEq, Prod.mk.injEq] at h
      simp [← h.2]
    · split at h
      · exact absurd h (by simp)
      · next data rest heq =>
        cases heq2 : readRecordBlocks (n - 256) rest with
        | error e => rw [heq2] at h; exact absurd h (by simp [Except.map])
        | ok rc2 =>
          rw [heq2] at h
          simp only [Except.map, Except.ok.injEq, Prod.mk.injEq] at h
          obtain ⟨-, hr⟩ := h
          subst hr
          have b1 := readBlockB_length heq
          have b2 := ih (n - 256) (by omega) heq2
          omega

/-- `CassetteStream._read_record`: find the leader, then read blocks —
one block when `reclen is None` (header search), else blocks until
`reclen` bytes have accumulated, truncating to `reclen` — then the
trailer.  A failed leader search is `EndOfTape`. -/
def readRecord (reclen : Option Nat) (bits : List Nat) :
    Except TapeErr (List Nat × List Nat) :=
  match readLeader bits with
  | none => .error .endOfTape
  | some r1 =>
    match reclen with
    | none =>
      match readBlockB r1 with
      | .error e => .error e
      | .ok (record, r2) => .ok (record, readTrailer r2)
    | some n =>
      match readRecordBlocks n r1 with
      | .error e => .error e
      | .ok (record, r2) => .ok (record.take n, readTrailer r2)

theorem readRecord_length {reclen : Option Nat} {bits rc r : List Nat}
    (h : readRecord reclen bits = .ok (rc, r)) : r.length < bits.length := by
  unfold readRecord at h
  split at h
  · exact absurd h (by simp)
  · next r1 h1 =>
    have a1 := readLeader_some_length bits.length (le_refl _) h1
    split at h
    · split at h
      · exact absurd h (by simp)
      · next record r2 heq =>
        simp only [Except.ok.injEq, Prod.mk.injEq] at h
        obtain ⟨-, hr⟩ := h
        subst hr
        have b1 := readBlockB_length heq
        have b2 := readTrailer_length r2
        omega
    · split at h
      · exact absurd h (by simp)
      · next record r2 heq =>
        simp only [Except.ok.injEq, Prod.mk.injEq] at h
        obtain ⟨-, hr⟩ := h
        subst hr
        have b1 := readRecordBlocks_length heq
        have b2 := readTrailer_length r2
        omega

/-- The header-search loop of `CassetteStream.open_read`: read records until
one starts with the header marker `0xA5` (other records are logged and
skipped). -/
def openReadRec (bits : List Nat) : Except TapeErr (List Nat × List Nat) :=
  match h : readRecord none bits with
  | .error e => .error e
  | .ok (record, rest) =>
    if record ≠ [] ∧ record.headD 0 = 0xa5 then .ok (record, rest)
    else openReadRec rest
termination_by bits.length
decreasing_by exact readRecord_length h

/-- The result of `CassetteStream.open_read`: trunk name, file type (`none`
for an unknown type token, which the source only logs), seg, offset,
declared length, and the remaining tape. -/
structure OpenReadResult where
  trunk : List Nat
  filetype : Option Filetype
  seg : Nat
  offset : Nat
  length : Nat
  rest : List Nat
deriving Repr, DecidableEq

/-- `CassetteStream.open_read`: search for a header record and unpack
`'<8sBHHH'` from its bytes 1–15. -/
def openRead (bits : List Nat) : Except TapeErr OpenReadResult :=
  match openReadRec bits with
  | .error e => .error e
  | .ok (record, rest) =>
    let trunk := (record.drop 1).take 8
    let token := record.getD 9 0
    let len := record.getD 10 0 + 256 * record.getD 11 0
    let seg := record.getD 12 0 + 256 * record.getD 13 0
    let offset := record.getD 14 0 + 256 * record.getD 15 0
    .ok ⟨trunk, tokenToType token, seg, offset, len, rest⟩

/-- `CassetteStream.read(-1)` for a binary-typed file:
`_fill_record_buffer` reads the single multi-block record of the declared
length; `EndOfTape` is caught by `read` and yields what was accumulated
(nothing, as the record buffer is only committed after a complete record);
`CRCError`/`PulseError` propagate. -/
def readAllBinary (len : Nat) (bits : List Nat) : Except TapeErr (List Nat) :=
  match readRecord (some len) bits with
  | .ok (record, _) => .ok record
  | .error .endOfTape => .ok []
  | .error e => .error e

/-- `CassetteStream.read(-1)` for a text-typed file: 256-byte records, one
block each; the first byte of each record is 0 for "255 more payload bytes
follow" and otherwise flags the final record carrying `value - 1` payload
bytes.  `EndOfTape` yields the bytes accumulated so far. -/
def readAllText (bits acc : List Nat) : Except TapeErr (List Nat) :=
  match h : readRecord (some 256) bits with
  | .error .endOfTape => .ok acc
  | .error e => .error e
  | .ok (record, rest) =>
    let numBytes := record.headD 0
    let rec1 := record.drop 1
    if numBytes ≠ 0 then .ok (acc ++ rec1.take (numBytes - 1))
    else readAllText rest (acc ++ rec1)
termination_by bits.length
decreasing_by exact readRecord_length h

/-- `CassetteStream.read(-1)` after `open_read` returned the given file type
and declared length. -/
def readAll (ft : Filetype) (len : Nat) (bits : List Nat) :
    Except TapeErr (List Nat) :=
  if ft.isBinary then readAllBinary len bits else readAllText bits []

end Cassette

namespace Cassette

/-! ### Bit/byte codec lemmas -/

theorem bitsOfByte_length (b : Nat) : (bitsOfByte b).length = 8 := by
  simp [bitsOfByte]

set_option maxRecDepth 8000 in
theorem byteOfBits_bitsOfByte : ∀ b < 256, byteOfBits (bitsOfByte b) = b := by
  decide

theorem bitsOfByte_zero_or_one {b x : Nat} (hx : x ∈ bitsOfByte b) :
    x = 0 ∨ x = 1 := by
  simp only [bitsOfByte, List.mem_map] at hx
  obtain ⟨i, -, hi⟩ := hx
  split at hi
  · right; omega
  · left; omega

theorem readByte_bitsOfByte {b : Nat} (hb : b < 256) (rest : List Nat) :
    readByte (bitsOfByte b ++ rest) = some (b, rest) := by
  have h8 := bitsOfByte_length b
  unfold readByte
  rw [if_pos (by simp [h8])]
  rw [List.take_left' h8, List.drop_left' h8, byteOfBits_bitsOfByte b hb]

theorem bitsOfBytes_nil : bitsOfBytes [] = [] := rfl

theorem bitsOfBytes_cons (b : Nat) (bs : List Nat) :
    bitsOfBytes (b :: bs) = bitsOfByte b ++ bitsOfBytes bs := by
  simp [bitsOfBytes]

theorem bitsOfBytes_append (xs ys : List Nat) :
    bitsOfBytes (xs ++ ys) = bitsOfBytes xs ++ bitsOfBytes ys := by
  simp [bitsOfBytes]

theorem readNBytes_bitsOfBytes : ∀ {bs : List Nat}, (∀ b ∈ bs, b < 256) →
    ∀ rest, readNBytes bs.length (bitsOfBytes bs ++ rest) = some (bs, rest) := by
  intro bs
  induction bs with
  | nil => intro _ rest; simp [readNBytes, bitsOfBytes]
  | cons b tl ih =>
    intro hb rest
    rw [List.length_cons, bitsOfBytes_cons, List.append_assoc]
    unfold readNBytes
    rw [readByte_bitsOfByte (hb b (by simp)) _]
    dsimp only []
    rw [ih (fun x hx => hb x (by simp [hx])) rest]

/-! ### Leader lemmas -/

theorem skipToOne_cons_one (t : List Nat) : skipToOne (1 :: t) = some t := by
  simp [skipToOne]

theorem skipToOne_cons_ne {b : Nat} (hb : b ≠ 1) (t : List Nat) :
    skipToOne (b :: t) = skipToOne t := by
  simp [skipToOne, hb]

theorem countOnes_replicate (k : Nat) {b : Nat} (hb : b ≠ 1) (t : List Nat) :
    ∀ a, countOnes (List.replicate k 1 ++ b :: t) a = some (a + k, t) := by
  induction k with
  | zero => intro a; simp [countOnes, hb]
  | succ m ih =>
    intro a
    rw [List.replicate_succ, List.cons_append]
    show countOnes (List.replicate m 1 ++ b :: t) (a + 1) = some (a + (m + 1), t)
    rw [ih (a + 1)]
    congr 2
    omega

/-- A single readLeader unfolding, stated match-free for easy rewriting. -/
theorem readLeader_unfold (bits : List Nat) :
    readLeader bits =
      match skipToOne bits with
      | none => none
      | some r1 =>
        match countOnes r1 0 with
        | none => none
        | some (counter, r2) =>
          if 512 ≤ counter then
            match readByte r2 with
            | none => none
            | some (sync, r3) =>
              if sync = 22 then some r3 else readLeader r3
          else readLeader r2 := by
  rw [readLeader]
  split
  · next h1 => rw [h1]
  · next r1 h1 =>
    simp only [h1]
    split
    · next h2 => rw [h2]
    · next counter r2 h2 =>
      simp only [h2]
      by_cases hc : 512 ≤ counter
      · rw [if_pos hc, if_pos hc]
        split
        · next h3 => rw [h3]
        · next sync r3 h3 => rw [h3]
      · rw [if_neg hc, if_neg hc]

end Cassette


namespace Cassette

theorem readLeader_cons_ne {b : Nat} (hb : b ≠ 1) (t : List Nat) :
    readLeader (b :: t) = readLeader t := by
  rw [readLeader_unfold, readLeader_unfold, skipToOne_cons_ne hb]

/-- Accepting run: at least 513 one-bits, a zero sync bit, the sync byte. -/
theorem readLeader_accept {k : Nat} (hk : 513 ≤ k) (rest : List Nat) :
    readLeader (List.replicate k 1 ++ 0 :: (bitsOfByte 22 ++ rest)) =
      some rest := by
  obtain ⟨m, rfl⟩ : ∃ m, k = m + 1 := ⟨k - 1, by omega⟩
  rw [readLeader_unfold]
  rw [List.replicate_succ, List.cons_append, skipToOne_cons_one]
  dsimp only []
  rw [countOnes_replicate m (show (0:Nat) ≠ 1 by omega) (bitsOfByte 22 ++ rest) 0]
  dsimp only []
  rw [Nat.zero_add, if_pos (by omega)]
  rw [readByte_bitsOfByte (by omega) rest]
  dsimp only []
  rw [if_pos rfl]

end Cassette

namespace Cassette

/-- `read_leader` scans past arbitrary junk bits, as long as the junk
contains no pilot-length run of one-bits, and then accepts the pilot. -/
theorem readLeader_junk : ∀ (n : Nat) (junk : List Nat), junk.length ≤ n →
    ¬ (List.replicate 513 1 <:+: junk) →
    ∀ {k : Nat}, 513 ≤ k → ∀ rest,
    readLeader (junk ++ (List.replicate k 1 ++ 0 :: (bitsOfByte 22 ++ rest))) =
      some rest := by
  intro n
  induction n with
  | zero =>
    intro junk hlen _ k hk rest
    have : junk = [] := List.eq_nil_of_length_eq_zero (by omega)
    subst this
    rw [List.nil_append]
    exact readLeader_accept hk rest
  | succ m ih =>
    intro junk hlen hinfx k hk rest
    match junk with
    | [] =>
      rw [List.nil_append]
      exact readLeader_accept hk rest
    | b :: j =>
      by_cases hb : b = 1
      · subst hb
        have hsplit := List.takeWhile_append_dropWhile (fun x => x == 1) j
        have hones_repl : j.takeWhile (fun x => x == 1) =
            List.replicate (j.takeWhile (fun x => x == 1)).length 1 := by
          apply List.eq_replicate_of_mem
          intro x hx
          have := List.mem_takeWhile_imp hx
          simpa using this
        match e : j.dropWhile (fun x => x == 1) with
        | [] =>
          -- the whole of j is ones; they merge with the pilot run
          have hj : j = List.replicate (j.takeWhile (fun x => x == 1)).length 1 := by
            conv_lhs => rw [← hsplit]
            rw [e, List.append_nil, ← hones_repl]
          set a := (j.takeWhile (fun x => x == 1)).length
          rw [List.cons_append, hj, ← List.append_assoc,
            ← List.replicate_add a k 1]
          rw [show (1 : Nat) :: (List.replicate (a + k) 1 ++
              0 :: (bitsOfByte 22 ++ rest)) =
            List.replicate (a + k + 1) 1 ++ 0 :: (bitsOfByte 22 ++ rest) from by
              rw [List.replicate_succ]
              rfl]
          exact readLeader_accept (by omega) rest
        | t0 :: t =>
          have ht0 : t0 ≠ 1 := by
            have hnot := List.head?_dropWhile_not (fun x => x == 1) j
            rw [e] at hnot
            simpa using hnot
          have hj : j = List.replicate (j.takeWhile (fun x => x == 1)).length 1
              ++ t0 :: t := by
            conv_lhs => rw [← hsplit]
            rw [e, ← hones_repl]
          set a := (j.takeWhile (fun x => x == 1)).length
          have ha : a < 512 := by
            by_contra hge
            apply hinfx
            have h1j : (1 : Nat) :: j =
                List.replicate (a + 1) 1 ++ t0 :: t := by
              rw [hj, List.replicate_succ]
              rfl
            rw [h1j]
            apply List.IsPrefix.isInfix
            calc List.replicate 513 1
                <+: List.replicate (a + 1) 1 := by
                  have hn : 513 + (a + 1 - 513) = a + 1 := by omega
                  have e : List.replicate (a + 1) (1:Nat) =
                      List.replicate 513 1 ++ List.replicate (a + 1 - 513) 1 := by
                    rw [← List.replicate_add, hn]
                  exact ⟨List.replicate (a + 1 - 513) 1, e.symm⟩
              _ <+: List.replicate (a + 1) 1 ++ t0 :: t :=
                  List.prefix_append _ _
          have htlen : t.length ≤ m := by
            have hj2 : j.length = a + 1 + t.length := by
              rw [hj]
              simp only [List.length_append, List.length_replicate,
                List.length_cons]
              omega
            simp only [List.length_cons] at hlen
            omega
          have htinf : ¬ (List.replicate 513 1 <:+: t) := by
            intro hc
            apply hinfx
            refine hc.trans (List.IsSuffix.isInfix ?_)
            refine ⟨1 :: (List.replicate a 1 ++ [t0]), ?_⟩
            rw [hj]
            simp
          rw [List.cons_append, hj, List.append_assoc, List.cons_append]
          rw [readLeader_unfold, skipToOne_cons_one]
          dsimp only []
          rw [countOnes_replicate a ht0 _ 0]
          dsimp only []
          rw [Nat.zero_add, if_neg (by omega)]
          exact ih t htlen htinf hk rest
      · rw [List.cons_append, readLeader_cons_ne hb]
        apply ih j (by simp at hlen; omega) ?_ hk
        intro hcontra
        exact hinfx (List.infix_cons hcontra)

end Cassette

namespace Cassette

theorem skipToOne_sound : ∀ {bits r : List Nat}, skipToOne bits = some r →
    ∃ j, bits = j ++ 1 :: r ∧ ∀ x ∈ j, x ≠ 1 := by
  intro bits
  induction bits with
  | nil => intro r h; simp [skipToOne] at h
  | cons b rest ih =>
    intro r h
    by_cases hb : b = 1
    · subst hb
      rw [skipToOne_cons_one] at h
      simp only [Option.some_inj] at h
      subst h
      exact ⟨[], by simp⟩
    · rw [skipToOne_cons_ne hb] at h
      obtain ⟨j, hj, hj1⟩ := ih h
      refine ⟨b :: j, by simp [hj], ?_⟩
      intro x hx
      rcases List.mem_cons.mp hx with h1 | h1
      · subst h1; exact hb
      · exact hj1 x h1

theorem countOnes_sound : ∀ {bits r : List Nat} {a c : Nat},
    countOnes bits a = some (c, r) →
    a ≤ c ∧ ∃ b, bits = List.replicate (c - a) 1 ++ b :: r ∧ b ≠ 1 := by
  intro bits
  induction bits with
  | nil => intro r a c h; simp [countOnes] at h
  | cons b rest ih =>
    intro r a c h
    by_cases hb : b = 1
    · subst hb
      simp only [countOnes, if_pos rfl] at h
      obtain ⟨hle, b', hb', hb1⟩ := ih h
      refine ⟨by omega, b', ?_, hb1⟩
      have : c - a = (c - (a + 1)) + 1 := by omega
      rw [this, List.replicate_succ, List.cons_append, hb']
    · simp only [countOnes, hb, if_neg, not_false_iff, Option.some_inj,
        Prod.mk.injEq] at h
      obtain ⟨hc, hr⟩ := h
      subst hc; subst hr
      exact ⟨le_refl _, b, by simp, hb⟩

theorem readByte_sound {bits r : List Nat} {s : Nat}
    (h : readByte bits = some (s, r)) :
    ∃ sync, bits = sync ++ r ∧ sync.length = 8 ∧ byteOfBits sync = s := by
  unfold readByte at h
  split at h
  · next hle =>
    simp only [Option.some_inj, Prod.mk.injEq] at h
    obtain ⟨hs, hr⟩ := h
    subst hs; subst hr
    exact ⟨bits.take 8, by simp, by simp; omega, rfl⟩
  · exact absurd h (by simp)

/-- Soundness of `read_leader` on a 0/1 bit stream: success means the
consumed prefix ends in a run of at least 513 one-bits, one 0 sync bit, and
eight sync-byte bits decoding to `0x16`. -/
theorem readLeader_sound : ∀ (n : Nat) {bits r : List Nat}, bits.length ≤ n →
    (∀ x ∈ bits, x = 0 ∨ x = 1) → readLeader bits = some r →
    ∃ junk c sync, bits = junk ++ (List.replicate (c + 1) 1 ++ 0 :: (sync ++ r))
      ∧ 512 ≤ c ∧ sync.length = 8 ∧ byteOfBits sync = 22 := by
  intro n
  induction n with
  | zero =>
    intro bits r hlen _ h
    have : bits = [] := List.eq_nil_of_length_eq_zero (by omega)
    subst this
    rw [readLeader_unfold] at h
    simp [skipToOne] at h
  | succ m ih =>
    intro bits r hlen h01 h
    rw [readLeader_unfold] at h
    cases e1 : skipToOne bits with
    | none => rw [e1] at h; exact absurd h (by simp)
    | some r1 =>
      rw [e1] at h
      dsimp only [] at h
      cases e2 : countOnes r1 0 with
      | none => rw [e2] at h; exact absurd h (by simp)
      | some cr =>
        obtain ⟨counter, r2⟩ := cr
        rw [e2] at h
        dsimp only [] at h
        obtain ⟨j, hjd, hj1⟩ := skipToOne_sound e1
        obtain ⟨-, b, hbd, hb1⟩ := countOnes_sound e2
        rw [Nat.sub_zero] at hbd
        have hb0 : b = 0 := by
          have hmem : b ∈ bits := by
            rw [hjd, hbd]
            simp
          rcases h01 b hmem with h0 | h0
          · exact h0
          · exact absurd h0 hb1
        subst hb0
        by_cases hc : 512 ≤ counter
        · rw [if_pos hc] at h
          cases e3 : readByte r2 with
          | none => rw [e3] at h; exact absurd h (by simp)
          | some sr =>
            obtain ⟨sync, r3⟩ := sr
            rw [e3] at h
            dsimp only [] at h
            obtain ⟨sy, hsyd, hsyl, hsyv⟩ := readByte_sound e3
            by_cases hs : sync = 22
            · rw [if_pos hs] at h
              simp only [Option.some_inj] at h
              subst h
              refine ⟨j, counter, sy, ?_, hc, hsyl, by rw [hsyv, hs]⟩
              rw [hjd, hbd, hsyd]
              simp [List.replicate_succ]
            · rw [if_neg hs] at h
              have h01r3 : ∀ x ∈ r3, x = 0 ∨ x = 1 := by
                intro x hx
                apply h01
                rw [hjd, hbd, hsyd]
                simp [hx]
              have hlenr3 : r3.length ≤ m := by
                have l1 := skipToOne_length e1
                have l2 := countOnes_length e2
                have l3 := readByte_length e3
                omega
              obtain ⟨junk', c', sync', hd, hc', hl', hv'⟩ :=
                ih hlenr3 h01r3 h
              refine ⟨j ++ 1 :: (List.replicate counter 1 ++ 0 :: (sy ++ junk')),
                c', sync', ?_, hc', hl', hv'⟩
              rw [hjd, hbd, hsyd, hd]
              simp
        · rw [if_neg hc] at h
          have h01r2 : ∀ x ∈ r2, x = 0 ∨ x = 1 := by
            intro x hx
            apply h01
            rw [hjd, hbd]
            simp [hx]
          have hlenr2 : r2.length ≤ m := by
            have l1 := skipToOne_length e1
            have l2 := countOnes_length e2
            omega
          obtain ⟨junk', c', sync', hd, hc', hl', hv'⟩ := ih hlenr2 h01r2 h
          refine ⟨j ++ 1 :: (List.replicate counter 1 ++ 0 :: junk'),
            c', sync', ?_, hc', hl', hv'⟩
          rw [hjd, hbd, hd]
          simp

end Cassette

namespace Cassette

/-- A stream consisting of a too-short pilot run followed by sync bit and
sync byte — and nothing else — is never accepted as a leader. -/
theorem readLeader_reject_short {k : Nat} (hk : k ≤ 512) :
    readLeader (List.replicate k 1 ++ 0 :: bitsOfByte 22) = none := by
  cases h : readLeader (List.replicate k 1 ++ 0 :: bitsOfByte 22) with
  | none => rfl
  | some r =>
    exfalso
    have h01 : ∀ x ∈ List.replicate k 1 ++ 0 :: bitsOfByte 22,
        x = 0 ∨ x = 1 := by
      intro x hx
      rcases List.mem_append.mp hx with h1 | h1
      · right; exact List.eq_of_mem_replicate h1
      · rcases List.mem_cons.mp h1 with h2 | h2
        · left; exact h2
        · exact bitsOfByte_zero_or_one h2
    obtain ⟨junk, c, sync, hd, hc, hl, -⟩ :=
      readLeader_sound _ (le_refl _) h01 h
    have hlen := congrArg List.length hd
    simp only [List.length_append, List.length_replicate, List.length_cons,
      bitsOfByte_length] at hlen
    rw [hl] at hlen
    omega

theorem readLeader_nil : readLeader [] = none := by
  rw [readLeader_unfold]
  simp [skipToOne]

/-- An all-zero tape never yields a leader. -/
theorem readLeader_zeros (n : Nat) : readLeader (List.replicate n 0) = none := by
  cases h : readLeader (List.replicate n 0) with
  | none => rfl
  | some r =>
    exfalso
    have h01 : ∀ x ∈ List.replicate n (0:Nat), x = 0 ∨ x = 1 := by
      intro x hx
      left; exact List.eq_of_mem_replicate hx
    obtain ⟨junk, c, sync, hd, -, -, -⟩ :=
      readLeader_sound _ (le_refl _) h01 h
    have : (1 : Nat) ∈ List.replicate n (0:Nat) := by
      rw [hd]
      simp [List.replicate_succ]
    have := List.eq_of_mem_replicate this
    omega

theorem readTrailer_append (k : Nat) (rest : List Nat) :
    readTrailer (List.replicate k 1 ++ 0 :: rest) = rest := by
  induction k with
  | zero => simp [readTrailer]
  | succ m ih =>
    rw [List.replicate_succ, List.cons_append]
    simpa [readTrailer] using ih

theorem readTrailer_writeTrailer (rest : List Nat) :
    readTrailer (writeTrailerBits ++ rest) = rest := by
  have : writeTrailerBits ++ rest = List.replicate 30 1 ++ 0 :: rest := by
    simp [writeTrailerBits]
  rw [this, readTrailer_append]

theorem bitsOfByte_ff : bitsOfByte 0xff = List.replicate 8 1 := by decide

theorem bitsOfBytes_replicate_ff :
    bitsOfBytes (List.replicate 256 0xff) = List.replicate 2048 1 := by
  have h : ∀ n, bitsOfBytes (List.replicate n 0xff) = List.replicate (8 * n) 1 := by
    intro n
    induction n with
    | zero => simp [bitsOfBytes]
    | succ m ih =>
      rw [List.replicate_succ, bitsOfBytes_cons, ih, bitsOfByte_ff,
        ← List.replicate_add]
      congr 1
      omega
  rw [h 256]

theorem writeLeaderBits_eq :
    writeLeaderBits = List.replicate 2048 1 ++ 0 :: bitsOfByte 22 := by
  rw [writeLeaderBits, bitsOfBytes_replicate_ff, List.append_assoc]
  rfl

/-- The leader written by `write_leader` is accepted by `read_leader`,
past any preceding junk free of pilot-length one-runs. -/
theorem readLeader_writeLeader (junk : List Nat)
    (hinfx : ¬ (List.replicate 513 1 <:+: junk)) (rest : List Nat) :
    readLeader (junk ++ (writeLeaderBits ++ rest)) = some rest := by
  rw [writeLeaderBits_eq, List.append_assoc]
  exact readLeader_junk junk.length junk (le_refl _) hinfx (by omega) rest

end Cassette

namespace Cassette

/-! ### CRC bounds and the block round trip -/

theorem crcStep_lt (r : Nat) : crcStep r < 65536 := by
  unfold crcStep
  exact lt_of_le_of_lt Nat.and_le_right (by norm_num)

theorem crcByteStep_lt (r d : Nat) : crcByteStep r d < 65536 := by
  unfold crcByteStep
  rw [show (8 : Nat) = 7 + 1 from rfl, Function.iterate_succ_apply']
  exact crcStep_lt _

theorem foldl_crcByteStep_lt : ∀ (l : List Nat) (r : Nat), r < 65536 →
    l.foldl crcByteStep r < 65536 := by
  intro l
  induction l with
  | nil => intro r hr; simpa using hr
  | cons d tl ih =>
    intro r hr
    rw [List.foldl_cons]
    exact ih _ (crcByteStep_lt r d)

theorem crc_lt (data : List Nat) : crc data < 65536 := by
  unfold crc
  have h1 : data.foldl crcByteStep 0xffff < 65536 :=
    foldl_crcByteStep_lt data 0xffff (by norm_num)
  have h2 : (65536 : Nat) = 2 ^ 16 := by norm_num
  rw [h2] at h1 ⊢
  exact Nat.xor_lt_two_pow h1 (by norm_num)

theorem padBlock_length {data : List Nat} (hne : data ≠ [])
    (hle : data.length ≤ 256) : (padBlock data).length = 256 := by
  unfold padBlock
  match e : data.getLast? with
  | none => exact absurd (List.getLast?_eq_none_iff.mp e) hne
  | some b =>
    simp only [List.length_append, List.length_replicate]
    omega

theorem padBlock_lt {data : List Nat} (hb : ∀ b ∈ data, b < 256) :
    ∀ b ∈ padBlock data, b < 256 := by
  intro b hmem
  unfold padBlock at hmem
  rcases List.mem_append.mp hmem with h | h
  · exact hb b h
  · match e : data.getLast? with
    | none => rw [e] at h; simp at h
    | some x =>
      rw [e] at h
      have hbx := List.eq_of_mem_replicate h
      subst hbx
      obtain ⟨hne, hx⟩ := List.mem_getLast?_eq_getLast
        (show b ∈ data.getLast? from by rw [e]; rfl)
      rw [hx]
      exact hb _ (List.getLast_mem hne)

theorem writeBlockBytes_eq (data : List Nat) :
    writeBlockBytes data = padBlock data ++
      [crc (padBlock data) / 256 % 256, crc (padBlock data) % 256] := rfl

theorem readNBytes_bitsOfBytes_len {n : Nat} {bs : List Nat}
    (hn : bs.length = n) (hb : ∀ b ∈ bs, b < 256) (rest : List Nat) :
    readNBytes n (bitsOfBytes bs ++ rest) = some (bs, rest) := by
  subst hn
  exact readNBytes_bitsOfBytes hb rest

/-- Reading back a written block succeeds and yields the padded data. -/
theorem readBlockB_writeBlock {data : List Nat} (hne : data ≠ [])
    (hle : data.length ≤ 256) (hb : ∀ b ∈ data, b < 256) (rest : List Nat) :
    readBlockB (bitsOfBytes (writeBlockBytes data) ++ rest) =
      .ok (padBlock data, rest) := by
  have hplen := padBlock_length hne hle
  have hplt := padBlock_lt hb
  have hclt := crc_lt (padBlock data)
  rw [writeBlockBytes_eq, bitsOfBytes_append, List.append_assoc]
  unfold readBlockB
  rw [readNBytes_bitsOfBytes_len hplen hplt _]
  dsimp only []
  have h2 : ∀ x ∈ [crc (padBlock data) / 256 % 256, crc (padBlock data) % 256],
      x < 256 := by
    intro x hx
    rcases List.mem_cons.mp hx with h | h
    · subst h; exact Nat.mod_lt _ (by norm_num)
    · rcases List.mem_cons.mp h with h1 | h1
      · subst h1; exact Nat.mod_lt _ (by norm_num)
      · simp at h1
  rw [readNBytes_bitsOfBytes_len (show ([crc (padBlock data) / 256 % 256,
    crc (padBlock data) % 256] : List Nat).length = 2 from rfl) h2 rest]
  dsimp only []
  have hgiven : (([crc (padBlock data) / 256 % 256,
      crc (padBlock data) % 256] : List Nat).getD 0 0) * 0x100 +
      (([crc (padBlock data) / 256 % 256,
        crc (padBlock data) % 256] : List Nat).getD 1 0) =
      crc (padBlock data) := by
    simp only [List.getD_cons_zero, List.getD_cons_succ]
    have h256 : crc (padBlock data) / 256 % 256 = crc (padBlock data) / 256 :=
      Nat.mod_eq_of_lt (by omega)
    rw [h256]
    omega
  rw [hgiven, if_pos rfl]

end Cassette

namespace Cassette

/-! ### Record round trip -/

/-- The data bytes a reader recovers from the blocks of one record: each
256-byte chunk padded (`padBlock`), concatenated. -/
def padConcat (data : List Nat) : List Nat :=
  if h : data = [] then []
  else padBlock (data.take 256) ++ padConcat (data.drop 256)
termination_by data.length
decreasing_by
  have : data.length ≠ 0 := fun hl => h (List.eq_nil_of_length_eq_zero hl)
  simp [List.length_drop]
  omega

theorem recordBlockBytes_small {data : List Nat} (hne : data ≠ [])
    (hle : data.length ≤ 256) : recordBlockBytes data = writeBlockBytes data := by
  rw [recordBlockBytes]
  rw [dif_neg hne]
  rw [List.take_of_length_le hle, List.drop_eq_nil_of_le hle]
  rw [recordBlockBytes]
  simp

theorem padBlock_of_length_eq {data : List Nat} (hne : data ≠ [])
    (hl : data.length = 256) : padBlock data = data := by
  unfold padBlock
  match e : data.getLast? with
  | none => exact absurd (List.getLast?_eq_none_iff.mp e) hne
  | some b => rw [hl]; simp

theorem padConcat_take : ∀ (n : Nat) (data : List Nat), data.length ≤ n →
    (padConcat data).take data.length = data := by
  intro n
  induction n with
  | zero =>
    intro data hlen
    have : data = [] := List.eq_nil_of_length_eq_zero (by omega)
    subst this
    rw [padConcat]
    simp
  | succ m ih =>
    intro data hlen
    match data with
    | [] => rw [padConcat]; simp
    | d :: tl =>
      rw [padConcat, dif_neg (by simp)]
      by_cases hle : (d :: tl).length ≤ 256
      · rw [List.drop_eq_nil_of_le hle,
          show padConcat ([] : List Nat) = [] from by rw [padConcat]; simp,
          List.append_nil, List.take_of_length_le hle]
        unfold padBlock
        match e : (d :: tl).getLast? with
        | none => simp at e
        | some b =>
          dsimp only []
          rw [List.take_left' rfl]
      · push_neg at hle
        have htake : ((d :: tl).take 256).length = 256 :=
          List.length_take_of_le (by omega)
        rw [padBlock_of_length_eq
          (by rw [← List.length_pos_iff_ne_nil, htake]; omega) htake]
        rw [List.take_append_eq_append_take]
        rw [List.take_of_length_le (by rw [htake]; omega)]
        rw [htake]
        have hk : (d :: tl).length - 256 = ((d :: tl).drop 256).length := by
          simp [List.length_drop]
        rw [hk]
        rw [ih ((d :: tl).drop 256) (by simp only [List.length_drop]; omega)]
        exact List.take_append_drop 256 (d :: tl)

/-- Reading the block loop back over a written record's blocks yields the
concatenation of the padded chunks. -/
theorem readRecordBlocks_writeRecord : ∀ (n : Nat) (data : List Nat),
    data.length ≤ n → (∀ b ∈ data, b < 256) → ∀ rest,
    readRecordBlocks data.length (bitsOfBytes (recordBlockBytes data) ++ rest) =
      .ok (padConcat data, rest) := by
  intro n
  induction n with
  | zero =>
    intro data hlen hb rest
    have : data = [] := List.eq_nil_of_length_eq_zero (by omega)
    subst this
    rw [readRecordBlocks]
    simp only [List.length_nil, if_pos rfl]
    rw [padConcat]
    simp [recordBlockBytes, bitsOfBytes]
  | succ m ih =>
    intro data hlen hb rest
    match data with
    | [] =>
      rw [readRecordBlocks]
      simp only [List.length_nil, if_pos rfl]
      rw [padConcat]
      simp [recordBlockBytes, bitsOfBytes]
    | d :: tl =>
      rw [recordBlockBytes, dif_neg (by simp)]
      rw [readRecordBlocks, if_neg (by simp)]
      rw [bitsOfBytes_append, List.append_assoc]
      rw [readBlockB_writeBlock (by simp) (by simp [List.length_take])
        (fun b hmem => hb b (List.mem_of_mem_take hmem)) _]
      dsimp only []
      have hlend : ((d :: tl).drop 256).length ≤ m := by
        simp only [List.length_drop]
        simp at hlen ⊢
        omega
      have hlend2 : (d :: tl).length - 256 = ((d :: tl).drop 256).length := by
        simp [List.length_drop]
      rw [hlend2]
      rw [ih ((d :: tl).drop 256) hlend
        (fun b hmem => hb b (List.mem_of_mem_drop hmem)) rest]
      simp only [Except.map]
      conv_rhs => rw [padConcat]
      rw [dif_neg (by simp : ¬ (d :: tl = []))]

theorem readLeader_writeLeader_nil (rest : List Nat) :
    readLeader (writeLeaderBits ++ rest) = some rest := by
  have h := readLeader_writeLeader [] (by
    intro hinf
    have hle := hinf.length_le
    rw [List.length_replicate, List.length_nil] at hle
    omega) rest
  rw [List.nil_append] at h
  exact h

/-- `_read_record(n)` applied to a record written by `_write_record` from
`n` bytes of data recovers the data exactly and consumes the trailer. -/
theorem readRecord_writeRecord {data : List Nat} (hb : ∀ b ∈ data, b < 256)
    (next : List Nat) :
    readRecord (some data.length) (writeRecordBits data ++ next) =
      .ok (data, next) := by
  unfold writeRecordBits
  rw [List.append_assoc, List.append_assoc]
  unfold readRecord
  rw [readLeader_writeLeader_nil _]
  dsimp only []
  rw [readRecordBlocks_writeRecord data.length data (le_refl _) hb _]
  dsimp only []
  rw [padConcat_take data.length data (le_refl _), readTrailer_writeTrailer]

end Cassette

namespace Cassette

/-! ### Header record and `open_read` -/

/-- `_read_record(None)` on a single-block record: one block, then the
trailer. -/
theorem readRecordNone_writeRecord {hdr : List Nat} (hne : hdr ≠ [])
    (hle : hdr.length ≤ 256) (hb : ∀ b ∈ hdr, b < 256) (junk : List Nat)
    (hinf : ¬ (List.replicate 513 1 <:+: junk)) (next : List Nat) :
    readRecord none (junk ++ (writeRecordBits hdr ++ next)) =
      .ok (padBlock hdr, next) := by
  have hassoc : junk ++ (writeRecordBits hdr ++ next) =
      junk ++ (writeLeaderBits ++ (bitsOfBytes (recordBlockBytes hdr) ++
        (writeTrailerBits ++ next))) := by
    unfold writeRecordBits
    simp [List.append_assoc]
  rw [hassoc]
  unfold readRecord
  rw [readLeader_writeLeader junk hinf _]
  dsimp only []
  rw [recordBlockBytes_small hne hle, readBlockB_writeBlock hne hle hb _]
  dsimp only []
  rw [readTrailer_writeTrailer]

/-- The header search accepts the first record when it carries the `0xA5`
marker. -/
theorem openReadRec_header {hdr : List Nat} (hne : hdr ≠ [])
    (hle : hdr.length ≤ 256) (hb : ∀ b ∈ hdr, b < 256)
    (hfirst : hdr.headD 0 = 0xa5) (junk : List Nat)
    (hinf : ¬ (List.replicate 513 1 <:+: junk)) (next : List Nat) :
    openReadRec (junk ++ (writeRecordBits hdr ++ next)) =
      .ok (padBlock hdr, next) := by
  rw [openReadRec]
  rw [readRecordNone_writeRecord hne hle hb junk hinf next]
  dsimp only []
  rw [if_pos ?_]
  constructor
  · intro hcontra
    have := padBlock_length hne hle
    rw [hcontra] at this
    simp at this
  · unfold padBlock
    match e : hdr.getLast? with
    | none => exact absurd (List.getLast?_eq_none_iff.mp e) hne
    | some b =>
      match hdr, hne with
      | h0 :: tl, _ => simpa using hfirst

theorem exists_eight {l : List Nat} (h : l.length = 8) :
    ∃ a b c d e f g h8, l = [a, b, c, d, e, f, g, h8] := by
  match l with
  | [a, b, c, d, e, f, g, h8] => exact ⟨a, b, c, d, e, f, g, h8, rfl⟩
  | [] => simp at h
  | [_] => simp at h
  | [_, _] => simp at h
  | [_, _, _] => simp at h
  | [_, _, _, _] => simp at h
  | [_, _, _, _, _] => simp at h
  | [_, _, _, _, _, _] => simp at h
  | [_, _, _, _, _, _, _] => simp at h
  | _ :: _ :: _ :: _ :: _ :: _ :: _ :: _ :: _ :: _ => simp at h

theorem tokenToType_typeToToken (ft : Filetype) :
    tokenToType (typeToToken ft) = some ft := by
  cases ft <;> rfl

end Cassette

namespace Cassette

theorem headerBytes_lt {name : List Nat} (hnb : ∀ b ∈ name, b < 256)
    (ft : Filetype) (l s o : Nat) :
    ∀ b ∈ headerBytes name ft l s o, b < 256 := by
  intro b hmem
  unfold headerBytes le16 at hmem
  rcases List.mem_cons.mp hmem with h | h
  · subst h; norm_num
  · rcases List.mem_append.mp h with h1 | h1
    · rcases List.mem_append.mp h1 with h2 | h2
      · exact hnb b (List.mem_of_mem_take h2)
      · have := List.eq_of_mem_replicate h2
        subst this; norm_num
    · rcases List.mem_cons.mp h1 with h2 | h2
      · subst h2; cases ft <;> norm_num [typeToToken]
      · have hcases : b = l % 256 ∨ b = l / 256 % 256 ∨ b = s % 256 ∨
            b = s / 256 % 256 ∨ b = o % 256 ∨ b = o / 256 % 256 ∨
            b = 0 ∨ b = 1 := by
          simpa using h2
        rcases hcases with h3|h3|h3|h3|h3|h3|h3|h3 <;> subst h3 <;> omega

theorem introBits_no_pilot : ¬ (List.replicate 513 1 <:+: introBits) := by
  intro h
  have hle := h.length_le
  rw [List.length_replicate, show introBits.length = 119 from rfl] at hle
  omega

/-- `open_read` on an image whose first record is a header record written
by `open_write` parses the name and header fields back. -/
theorem openRead_header_image (n0 n1 n2 n3 n4 n5 n6 n7 : Nat)
    (ft : Filetype) (seg offs len : Nat) (junk next : List Nat)
    (hinf : ¬ (List.replicate 513 1 <:+: junk))
    (hnb : ∀ b ∈ [n0, n1, n2, n3, n4, n5, n6, n7], b < 256)
    (hseg : seg < 65536) (hoffs : offs < 65536) (hlen : len < 65536) :
    openRead (junk ++ (writeRecordBits
        (headerBytes [n0, n1, n2, n3, n4, n5, n6, n7] ft len seg offs) ++
        next)) =
      .ok ⟨[n0, n1, n2, n3, n4, n5, n6, n7], some ft, seg, offs, len, next⟩ := by
  unfold openRead
  rw [openReadRec_header (by simp [headerBytes])
    (by rw [show (headerBytes [n0, n1, n2, n3, n4, n5, n6, n7]
      ft len seg offs).length = 18 from rfl]; omega)
    (headerBytes_lt hnb ft len seg offs) (by rfl) junk hinf next]
  dsimp only []
  rw [show ((padBlock (headerBytes [n0, n1, n2, n3, n4, n5, n6, n7]
      ft len seg offs)).drop 1).take 8 = [n0, n1, n2, n3, n4, n5, n6, n7]
    from rfl]
  rw [show (padBlock (headerBytes [n0, n1, n2, n3, n4, n5, n6, n7]
      ft len seg offs)).getD 9 0 = typeToToken ft from rfl]
  rw [show (padBlock (headerBytes [n0, n1, n2, n3, n4, n5, n6, n7]
      ft len seg offs)).getD 10 0 = len % 256 from rfl]
  rw [show (padBlock (headerBytes [n0, n1, n2, n3, n4, n5, n6, n7]
      ft len seg offs)).getD 11 0 = len / 256 % 256 from rfl]
  rw [show (padBlock (headerBytes [n0, n1, n2, n3, n4, n5, n6, n7]
      ft len seg offs)).getD 12 0 = seg % 256 from rfl]
  rw [show (padBlock (headerBytes [n0, n1, n2, n3, n4, n5, n6, n7]
      ft len seg offs)).getD 13 0 = seg / 256 % 256 from rfl]
  rw [show (padBlock (headerBytes [n0, n1, n2, n3, n4, n5, n6, n7]
      ft len seg offs)).getD 14 0 = offs % 256 from rfl]
  rw [show (padBlock (headerBytes [n0, n1, n2, n3, n4, n5, n6, n7]
      ft len seg offs)).getD 15 0 = offs / 256 % 256 from rfl]
  rw [tokenToType_typeToToken]
  congr 1
  have e1 : len % 256 + 256 * (len / 256 % 256) = len := by omega
  have e2 : seg % 256 + 256 * (seg / 256 % 256) = seg := by omega
  have e3 : offs % 256 + 256 * (offs / 256 % 256) = offs := by omega
  rw [e1, e2, e3]

end Cassette

namespace Cassette

theorem casWriteImage_binary {ft : Filetype} (hft : ft.isBinary = true)
    (name : List Nat) (seg offs len : Nat) (payload : List Nat) :
    casWriteImage name ft seg offs len payload =
      introBits ++ (writeRecordBits (headerBytes name ft len seg offs) ++
        writeRecordBits payload) := by
  have hAD : ¬ (ft = Filetype.A ∨ ft = Filetype.D) := by
    cases ft <;> simp_all [Filetype.isBinary]
  unfold casWriteImage openWrite closeBits
  rw [hft]
  simp only [hAD, if_neg, if_false, ite_false, if_true, List.append_assoc]

theorem casWriteImage_A_empty (name : List Nat) (seg offs len : Nat) :
    casWriteImage name Filetype.A seg offs len [] =
      introBits ++ (writeRecordBits (headerBytes name Filetype.A 0 0 0) ++
        []) := by
  unfold casWriteImage openWrite closeBits
  simp only [show (Filetype.A = Filetype.A ∨ Filetype.A = Filetype.D) from
    Or.inl rfl, if_true, ite_true]
  rw [show Filetype.A.isBinary = false from rfl]
  rw [show flushChunks [] = ([], []) from by rw [flushChunks]; simp]
  simp [initState, List.append_assoc]

end Cassette

namespace Cassette

/-- C1 (amended): the tape-record-protocol round trip is exact for the
binary-typed records `M`, `B`, `P` with an 8-byte name and a declared
length equal to the payload length.  Writing the record to a fresh CAS
image (`open_write`, `write(payload)`, `close`) and reading the image back
(`open_read`, `read(-1)`) recovers the identical name, type, segment,
offset, length and payload. -/
theorem c1_tape_roundtrip_binary (name payload : List Nat) (ft : Filetype)
    (seg offs : Nat) (hft : ft.isBinary = true) (h8 : name.length = 8)
    (hnb : ∀ b ∈ name, b < 256) (hseg : seg < 65536) (hoffs : offs < 65536)
    (hplen : payload.length < 65536) (hpb : ∀ b ∈ payload, b < 256) :
    ∃ rest : List Nat,
      openRead (casWriteImage name ft seg offs payload.length payload) =
        .ok ⟨name, some ft, seg, offs, payload.length, rest⟩ ∧
      readAll ft payload.length rest = .ok payload := by
  obtain ⟨n0, n1, n2, n3, n4, n5, n6, n7, rfl⟩ := exists_eight h8
  refine ⟨writeRecordBits payload, ?_, ?_⟩
  · rw [casWriteImage_binary hft]
    exact openRead_header_image n0 n1 n2 n3 n4 n5 n6 n7 ft seg offs
      payload.length introBits (writeRecordBits payload) introBits_no_pilot
      hnb hseg hoffs hplen
  · unfold readAll
    rw [hft, if_pos rfl]
    unfold readAllBinary
    rw [show writeRecordBits payload = writeRecordBits payload ++ [] from
      (List.append_nil _).symm]
    rw [readRecord_writeRecord hpb []]

/-- C1 counterexample to the claim as stated: for the text-typed records
the supplied segment is discarded.  Writing an `A`-type record with
segment 1 to a fresh image and reading it back yields segment 0 (the
remembered value of a fresh stream), not 1. -/
theorem c1_roundtrip_counterexample :
    (openRead (casWriteImage [84, 69, 83, 84, 70, 73, 76, 69] Filetype.A
        1 0 0 [])).map OpenReadResult.seg ≠ .ok 1 := by
  rw [casWriteImage_A_empty]
  rw [openRead_header_image 84 69 83 84 70 73 76 69 Filetype.A 0 0 0
    introBits [] introBits_no_pilot (by decide) (by omega) (by omega)
    (by omega)]
  simp [Except.map]

/-- Witness for the amended C1 at a concrete input. -/
theorem c1_tape_roundtrip_binary_witness :
    ∃ rest : List Nat,
      openRead (casWriteImage [84, 69, 83, 84, 70, 73, 76, 69] Filetype.B
          96 2074 5 [72, 69, 76, 76, 79]) =
        .ok ⟨[84, 69, 83, 84, 70, 73, 76, 69], some Filetype.B, 96, 2074, 5,
          rest⟩ ∧
      readAll Filetype.B 5 rest = .ok [72, 69, 76, 76, 79] :=
  c1_tape_roundtrip_binary [84, 69, 83, 84, 70, 73, 76, 69]
    [72, 69, 76, 76, 79] Filetype.B 96 2074 rfl (by decide) (by decide)
    (by decide) (by decide) (by decide) (by decide)

end Cassette

namespace Cassette

theorem padBlock_eq_getLast {data : List Nat} (hne : data ≠ []) :
    padBlock data = data ++
      List.replicate (256 - data.length) (data.getLast hne) := by
  unfold padBlock
  rw [List.getLast?_eq_getLast_of_ne_nil hne]

/-- C6: `_write_block` emits exactly 258 bytes — the input padded to 256
bytes by repeating its own last byte, then the CRC-16-CCITT of the padded
block (as computed by `crc`: polynomial 0x1021, initial register 0xFFFF,
final XOR 0xFFFF, MSB-first, byte at a time), most significant byte
first. -/
theorem c6_write_block_format (data : List Nat) (hne : data ≠ [])
    (hle : data.length ≤ 256) :
    (writeBlockBytes data).length = 258 ∧
    (writeBlockBytes data).take 256 =
      data ++ List.replicate (256 - data.length) (data.getLast hne) ∧
    (writeBlockBytes data).getD 256 0 =
      crc ((writeBlockBytes data).take 256) / 256 ∧
    (writeBlockBytes data).getD 257 0 =
      crc ((writeBlockBytes data).take 256) % 256 ∧
    crc ((writeBlockBytes data).take 256) < 65536 := by
  have hplen := padBlock_length hne hle
  have hclt := crc_lt (padBlock data)
  have htake : (writeBlockBytes data).take 256 = padBlock data := by
    rw [writeBlockBytes_eq]
    exact List.take_left' hplen
  refine ⟨?_, ?_, ?_, ?_, ?_⟩
  · rw [writeBlockBytes_eq]
    simp [hplen]
  · rw [htake, padBlock_eq_getLast hne]
  · rw [htake, writeBlockBytes_eq,
      List.getD_append_right _ _ _ _ (by omega)]
    rw [hplen]
    norm_num
    omega
  · rw [htake, writeBlockBytes_eq,
      List.getD_append_right _ _ _ _ (by omega)]
    rw [hplen]
    norm_num
  · rw [htake]
    exact hclt

/-- Witness for C6 at a concrete block. -/
theorem c6_write_block_format_witness :
    ([1, 2, 3] : List Nat) ≠ [] ∧ ([1, 2, 3] : List Nat).length ≤ 256 ∧
    ((writeBlockBytes [1, 2, 3]).length = 258 ∧
     (writeBlockBytes [1, 2, 3]).take 256 =
       [1, 2, 3] ++ List.replicate (256 - ([1, 2, 3] : List Nat).length)
         (([1, 2, 3] : List Nat).getLast (by decide)) ∧
     (writeBlockBytes [1, 2, 3]).getD 256 0 =
       crc ((writeBlockBytes [1, 2, 3]).take 256) / 256 ∧
     (writeBlockBytes [1, 2, 3]).getD 257 0 =
       crc ((writeBlockBytes [1, 2, 3]).take 256) % 256 ∧
     crc ((writeBlockBytes [1, 2, 3]).take 256) < 65536) :=
  ⟨by decide, by decide, c6_write_block_format [1, 2, 3] (by decide) (by decide)⟩

end Cassette

namespace Cassette

/-- One `open_write` call of a session. -/
structure WriteCall where
  name : List Nat
  ft : Filetype
  seg : Nat
  offs : Nat
  len : Nat

/-- The stream state after a sequence of `open_write` calls. -/
def runState (st : StreamState) : List WriteCall → StreamState
  | [] => st
  | c :: cs => runState (openWrite st c.name c.ft c.seg c.offs c.len).1 cs

/-- Spec-side description of the remembered header fields: the
seg/offset/length of the most recent binary-typed (`M`, `B` or `P`)
`open_write`, initially `(0, 0, 0)`. -/
def specRemembered (calls : List WriteCall) : Nat × Nat × Nat :=
  calls.foldl
    (fun acc c => if c.ft.isBinary then (c.seg, c.offs, c.len) else acc)
    (0, 0, 0)

theorem textType_iff_not_isBinary (ft : Filetype) :
    (ft = Filetype.A ∨ ft = Filetype.D) ↔ ft.isBinary = false := by
  cases ft <;> simp [Filetype.isBinary]

theorem runState_foldl : ∀ (calls : List WriteCall) (st : StreamState),
    runState st calls = ⟨calls.foldl
      (fun acc c => if c.ft.isBinary then (c.seg, c.offs, c.len) else acc)
      st.last⟩ := by
  intro calls
  induction calls with
  | nil => intro st; rfl
  | cons c cs ih =>
    intro st
    rw [runState, List.foldl_cons, ih]
    congr 1
    unfold openWrite
    by_cases hAD : c.ft = Filetype.A ∨ c.ft = Filetype.D
    · have hbin : c.ft.isBinary = false := (textType_iff_not_isBinary _).mp hAD
      simp [hAD, hbin]
    · have hbin : c.ft.isBinary = true := by
        rcases (textType_iff_not_isBinary c.ft) with ⟨h1, h2⟩
        cases hb : c.ft.isBinary
        · exact absurd (h2 hb) hAD
        · rfl
      simp [hAD, hbin]

/-- C9: `open_write` header-field bookkeeping.  For `A`/`D` files the
caller-supplied segment/offset/length are discarded: the header carries the
remembered `self.last` triple, left unchanged.  For binary-typed files the
supplied values are written to the header and become the new remembered
triple.  Over any call sequence, the remembered triple equals the values of
the most recent binary-typed call (initially `(0, 0, 0)`). -/
theorem c9_open_write_last_quirk :
    (∀ (st : StreamState) (name : List Nat) (ft : Filetype) (seg offs len : Nat),
      (ft = Filetype.A ∨ ft = Filetype.D) →
      openWrite st name ft seg offs len =
        (st, writeRecordBits
          (headerBytes name ft st.last.2.2 st.last.1 st.last.2.1))) ∧
    (∀ (st : StreamState) (name : List Nat) (ft : Filetype) (seg offs len : Nat),
      ft.isBinary = true →
      openWrite st name ft seg offs len =
        (⟨(seg, offs, len)⟩, writeRecordBits (headerBytes name ft len seg offs))) ∧
    (∀ calls : List WriteCall, runState initState calls = ⟨specRemembered calls⟩) := by
  refine ⟨?_, ?_, ?_⟩
  · intro st name ft seg offs len hAD
    unfold openWrite
    simp [hAD]
  · intro st name ft seg offs len hbin
    have hAD : ¬ (ft = Filetype.A ∨ ft = Filetype.D) := by
      rw [textType_iff_not_isBinary, hbin]
      simp
    unfold openWrite
    simp [hAD]
  · intro calls
    rw [runState_foldl]
    rfl

/-- Witness for C9 at concrete inputs. -/
theorem c9_open_write_last_quirk_witness :
    openWrite ⟨(7, 8, 9)⟩ [84] Filetype.A 1 2 3 =
      (⟨(7, 8, 9)⟩, writeRecordBits (headerBytes [84] Filetype.A 9 7 8)) ∧
    openWrite ⟨(7, 8, 9)⟩ [84] Filetype.M 1 2 3 =
      (⟨(1, 2, 3)⟩, writeRecordBits (headerBytes [84] Filetype.M 3 1 2)) :=
  ⟨c9_open_write_last_quirk.1 ⟨(7, 8, 9)⟩ [84] Filetype.A 1 2 3 (Or.inl rfl),
   c9_open_write_last_quirk.2.1 ⟨(7, 8, 9)⟩ [84] Filetype.M 1 2 3 rfl⟩

end Cassette

namespace Cassette

/-- C8: behaviour of the digital `read_leader`.
1. Soundness: on a 0/1 stream, success means the consumed prefix ended in a
   run of at least 513 consecutive 1 framing units, exactly one 0 (the sync
   bit), and eight bits decoding to the sync byte `0x16`.
2. Acceptance: any pilot of at least 513 ones followed by the sync bit and
   sync byte is accepted, returning the rest of the stream.
3. A stream whose run of 1s before the sync byte is shorter than the
   minimum is never accepted (returns `False` at end of medium).
4. On a sync-byte mismatch the search restarts without raising: a second,
   valid pilot after the mismatched byte is still accepted.
5. At end of medium `read_leader` returns `False` rather than raising:
   both an empty stream and an all-zero stream yield `none`. -/
theorem c8_read_leader :
    (∀ (bits r : List Nat), (∀ x ∈ bits, x = 0 ∨ x = 1) →
      readLeader bits = some r →
      ∃ junk c sync, bits = junk ++
          (List.replicate (c + 1) 1 ++ 0 :: (sync ++ r)) ∧
        512 ≤ c ∧ sync.length = 8 ∧ byteOfBits sync = 22) ∧
    (∀ (k : Nat), 513 ≤ k → ∀ rest,
      readLeader (List.replicate k 1 ++ 0 :: (bitsOfByte 22 ++ rest)) =
        some rest) ∧
    (∀ (k : Nat), k ≤ 512 →
      readLeader (List.replicate k 1 ++ 0 :: bitsOfByte 22) = none) ∧
    (∀ rest, readLeader (List.replicate 513 1 ++ 0 :: (bitsOfByte 0 ++
        (List.replicate 513 1 ++ 0 :: (bitsOfByte 22 ++ rest)))) =
      some rest) ∧
    readLeader [] = none ∧
    (∀ n, readLeader (List.replicate n 0) = none) := by
  refine ⟨?_, ?_, ?_, ?_, readLeader_nil, readLeader_zeros⟩
  · intro bits r h01 h
    exact readLeader_sound bits.length (le_refl _) h01 h
  · intro k hk rest
    exact readLeader_accept hk rest
  · intro k hk
    exact readLeader_reject_short hk
  · intro rest
    rw [readLeader_unfold]
    rw [show (513 : Nat) = 512 + 1 from rfl, List.replicate_succ,
      List.cons_append, skipToOne_cons_one]
    dsimp only []
    rw [countOnes_replicate 512 (show (0:Nat) ≠ 1 by omega) _ 0]
    dsimp only []
    rw [Nat.zero_add, if_pos (by omega)]
    rw [readByte_bitsOfByte (by omega) _]
    dsimp only []
    rw [if_neg (by omega)]
    rw [← List.cons_append, ← List.replicate_succ]
    exact readLeader_accept (by omega) rest

/-- Witness for C8 at concrete inputs. -/
theorem c8_read_leader_witness :
    readLeader (List.replicate 513 1 ++ 0 :: (bitsOfByte 22 ++ [1, 0])) =
      some [1, 0] ∧
    readLeader (List.replicate 512 1 ++ 0 :: bitsOfByte 22) = none :=
  ⟨c8_read_leader.2.1 513 (by omega) [1, 0],
   c8_read_leader.2.2.1 512 (by omega)⟩

end Cassette

namespace Cassette

/-! ### CRC linearity and single-bit error detection -/

theorem shiftLeft_xor_distrib (a b n : Nat) :
    (a ^^^ b) <<< n = (a <<< n) ^^^ (b <<< n) := by
  apply Nat.eq_of_testBit_eq
  intro i
  simp [Nat.testBit_shiftLeft, Nat.testBit_xor, Bool.and_xor_distrib_left]

theorem and_hi_iff (x : Nat) : (x &&& 65536 ≠ 0) ↔ x.testBit 16 := by
  constructor
  · intro h
    by_contra hb
    apply h
    have := Nat.and_two_pow x 16
    norm_num at this
    simp [hb] at this
    omega
  · intro h hb
    have := Nat.and_two_pow x 16
    norm_num at this
    rw [h] at this
    simp at this
    omega

theorem shiftLeft_one_testBit16 (r : Nat) :
    (r <<< 1).testBit 16 = r.testBit 15 := by
  rw [Nat.testBit_shiftLeft]
  norm_num

/-- Closed form of one CRC shift: shift, mask, and conditionally add the
polynomial according to the bit shifted out. -/
theorem crcStep_closed (r : Nat) : crcStep r =
    ((r <<< 1) &&& 0xffff) ^^^ (if r.testBit 15 then 0x1021 else 0) := by
  unfold crcStep
  dsimp only []
  by_cases h : (r <<< 1) &&& 65536 ≠ 0
  · have h15 : r.testBit 15 := by
      rw [← shiftLeft_one_testBit16]
      exact (and_hi_iff _).mp h
    rw [if_pos h, if_pos h15, Nat.and_xor_distrib_right,
      show (4129:Nat) &&& 65535 = 4129 from by decide]
  · have h15 : r.testBit 15 = false := by
      rw [← shiftLeft_one_testBit16]
      rw [not_not] at h
      by_contra hb
      simp only [Bool.not_eq_false] at hb
      rw [← and_hi_iff] at hb
      exact hb h
    rw [if_neg h, h15, if_neg (by simp), Nat.xor_zero]

theorem bool_xor_shuffle (a b c d : Bool) :
    ((a ^^ b) ^^ (c ^^ d)) = ((a ^^ c) ^^ (b ^^ d)) := by
  cases a <;> cases b <;> cases c <;> cases d <;> rfl

theorem xor_shuffle (a b c d : Nat) :
    (a ^^^ b) ^^^ (c ^^^ d) = (a ^^^ c) ^^^ (b ^^^ d) := by
  apply Nat.eq_of_testBit_eq
  intro i
  simp only [Nat.testBit_xor]
  exact bool_xor_shuffle _ _ _ _

theorem ite_xor_bool (x y : Bool) (c : Nat) :
    (if (x ^^ y) = true then c else 0) =
      (if x = true then c else 0) ^^^ (if y = true then c else 0) := by
  cases x <;> cases y <;> simp

/-- The CRC shift register is linear over GF(2). -/
theorem crcStep_xor (a b : Nat) : crcStep (a ^^^ b) = crcStep a ^^^ crcStep b := by
  rw [crcStep_closed, crcStep_closed, crcStep_closed]
  rw [shiftLeft_xor_distrib, Nat.and_xor_distrib_right]
  rw [Nat.testBit_xor, ite_xor_bool]
  exact xor_shuffle _ _ _ _

theorem crcIter_xor (n : Nat) : ∀ a b : Nat,
    crcStep^[n] (a ^^^ b) = crcStep^[n] a ^^^ crcStep^[n] b := by
  induction n with
  | zero => intro a b; rfl
  | succ m ih =>
    intro a b
    rw [Function.iterate_succ_apply, Function.iterate_succ_apply,
      Function.iterate_succ_apply, crcStep_xor]
    exact ih _ _

theorem testBit15_false_lt (r : Nat) (hr : r < 65536)
    (h : r.testBit 15 = false) : r < 32768 := by
  rw [Nat.testBit_to_div_mod] at h
  simp only [decide_eq_false_iff_not] at h
  have h2 : r / 2 ^ 15 % 2 = 0 := by omega
  norm_num at h2
  omega

theorem and_ffff (x : Nat) : x &&& 65535 = x % 65536 := by
  have := Nat.and_pow_two_sub_one_eq_mod x 16
  norm_num at this
  exact this

/-- A nonzero register stays nonzero through one CRC shift: either the top
bit is clear and the register just doubles, or the polynomial (odd) is
mixed into an even shifted value, leaving bit 0 set. -/
theorem crcStep_ne_zero {r : Nat} (hr : r < 65536) (hne : r ≠ 0) :
    crcStep r ≠ 0 := by
  rw [crcStep_closed]
  cases h15 : r.testBit 15 with
  | false =>
    rw [if_neg (by simp), Nat.xor_zero, and_ffff]
    have hlt := testBit15_false_lt r hr h15
    rw [Nat.shiftLeft_eq]
    norm_num
    omega
  | true =>
    rw [if_pos rfl]
    intro hzero
    have hbit := congrArg (fun x => x.testBit 0) hzero
    simp only [Nat.testBit_xor, Nat.zero_testBit] at hbit
    have h1 : ((r <<< 1) &&& 65535).testBit 0 = false := by
      rw [Nat.testBit_and, Nat.testBit_shiftLeft]
      simp
    have h2 : (4129 : Nat).testBit 0 = true := by decide
    rw [h1, h2] at hbit
    simp at hbit

theorem crcIter_ne_zero (n : Nat) {r : Nat} (hr : r < 65536) (hne : r ≠ 0) :
    crcStep^[n] r ≠ 0 ∧ crcStep^[n] r < 65536 := by
  induction n with
  | zero => exact ⟨hne, hr⟩
  | succ m ih =>
    rw [Function.iterate_succ_apply']
    exact ⟨crcStep_ne_zero ih.2 ih.1, crcStep_lt _⟩

theorem crcByteStep_xor (r e d : Nat) :
    crcByteStep (r ^^^ e) d = crcByteStep r d ^^^ crcStep^[8] e := by
  unfold crcByteStep
  rw [Nat.xor_assoc, Nat.xor_comm e _, ← Nat.xor_assoc, crcIter_xor]

/-- Flipping bits of the byte fed into the CRC register offsets the result
by an error term independent of the register and the original byte. -/
theorem crcByteStep_flip (r b e : Nat) :
    crcByteStep r (b ^^^ e) = crcByteStep r b ^^^ crcStep^[8] (e <<< 8) := by
  unfold crcByteStep
  rw [shiftLeft_xor_distrib, ← Nat.xor_assoc, crcIter_xor]

theorem foldl_crcByteStep_xor : ∀ (l : List Nat) (r e : Nat),
    l.foldl crcByteStep (r ^^^ e) =
      l.foldl crcByteStep r ^^^ crcStep^[8 * l.length] e := by
  intro l
  induction l with
  | nil => intro r e; simp
  | cons d tl ih =>
    intro r e
    rw [List.foldl_cons, List.foldl_cons, crcByteStep_xor, ih]
    rw [List.length_cons]
    rw [show 8 * (tl.length + 1) = 8 * tl.length + 8 by ring,
      Function.iterate_add_apply]

/-- Flipping the bits `e ≠ 0` (with `e < 256`) of any single byte of the
input changes the CRC: the propagated error term is an iterate of the
nonzero register `e <<< 8` and can never return to zero. -/
theorem crc_flip_ne (l1 l2 : List Nat) (b e : Nat) (hne : e ≠ 0)
    (helt : e < 256) : crc (l1 ++ (b ^^^ e) :: l2) ≠ crc (l1 ++ b :: l2) := by
  unfold crc
  intro h
  have h2 : (l1 ++ (b ^^^ e) :: l2).foldl crcByteStep 0xffff =
      (l1 ++ b :: l2).foldl crcByteStep 0xffff := by
    have := congrArg (fun x => x ^^^ 0xffff) h
    simpa [Nat.xor_assoc] using this
  rw [List.foldl_append, List.foldl_append, List.foldl_cons, List.foldl_cons,
    crcByteStep_flip, foldl_crcByteStep_xor] at h2
  have h3 : crcStep^[8 * l2.length] (crcStep^[8] (e <<< 8)) = 0 := by
    have h4 := congrArg (fun x =>
      l2.foldl crcByteStep (crcByteStep (l1.foldl crcByteStep 0xffff) b) ^^^ x) h2
    simpa [← Nat.xor_assoc, Nat.xor_self] using h4
  have h5 : e <<< 8 < 65536 := by
    rw [Nat.shiftLeft_eq]; norm_num; omega
  have h6 : e <<< 8 ≠ 0 := by
    rw [Nat.shiftLeft_eq]; positivity
  rw [← Function.iterate_add_apply] at h3
  exact (crcIter_ne_zero _ h5 h6).1 h3

end Cassette

namespace Cassette

theorem bitsOfBytes_length (bs : List Nat) :
    (bitsOfBytes bs).length = 8 * bs.length := by
  induction bs with
  | nil => rfl
  | cons b tl ih =>
    rw [bitsOfBytes_cons, List.length_append, bitsOfByte_length, ih,
      List.length_cons]
    ring

set_option maxRecDepth 20000 in
/-- Flipping framing unit `j` of the eight tape bits of a byte is the same
as flipping bit `7 - j` of the byte itself. -/
theorem bitsOfByte_flip : ∀ b < 256, ∀ j < 8,
    (bitsOfByte b).set j (1 - (bitsOfByte b).getD j 0) =
      bitsOfByte (b ^^^ (128 >>> j)) := by decide

/-- Flipping tape bit `k` of a byte sequence on tape flips bit
`7 - k % 8` of byte `k / 8`. -/
theorem bitsOfBytes_set_flip : ∀ (bs : List Nat), (∀ b ∈ bs, b < 256) →
    ∀ k < 8 * bs.length,
      (bitsOfBytes bs).set k (1 - (bitsOfBytes bs).getD k 0) =
        bitsOfBytes (bs.set (k / 8)
          (bs.getD (k / 8) 0 ^^^ (128 >>> (k % 8)))) := by
  intro bs
  induction bs with
  | nil => intro _ k hk; simp at hk
  | cons b tl ih =>
    intro hb k hk
    have hlen := bitsOfByte_length b
    rw [bitsOfBytes_cons]
    by_cases hk8 : k < 8
    · rw [List.set_append_left _ _ (by rw [hlen]; exact hk8),
        List.getD_append _ _ _ _ (by rw [hlen]; exact hk8),
        bitsOfByte_flip b (hb b (by simp)) k hk8,
        Nat.div_eq_of_lt hk8, Nat.mod_eq_of_lt hk8,
        List.set_cons_zero, List.getD_cons_zero, bitsOfBytes_cons]
    · have h8le : 8 ≤ k := by omega
      rw [List.set_append_right _ _ (by rw [hlen]; omega),
        List.getD_eq_getElem?_getD,
        List.getElem?_append_right (by rw [hlen]; omega),
        ← List.getD_eq_getElem?_getD, hlen,
        ih (fun x hx => hb x (by simp [hx])) (k - 8)
          (by rw [List.length_cons] at hk; omega)]
      have hdiv : k / 8 = (k - 8) / 8 + 1 := by omega
      have hmod : k % 8 = (k - 8) % 8 := by omega
      rw [hdiv, hmod, List.set_cons_succ, List.getD_cons_succ, bitsOfBytes_cons]

theorem crcBytes_getD (c : Nat) (hc : c < 65536) :
    (([c / 256 % 256, c % 256] : List Nat).getD 0 0) * 0x100 +
      (([c / 256 % 256, c % 256] : List Nat).getD 1 0) = c := by
  simp only [List.getD_cons_zero, List.getD_cons_succ]
  have h256 : c / 256 % 256 = c / 256 := Nat.mod_eq_of_lt (by omega)
  rw [h256]
  omega

theorem crcBytes_lt (c : Nat) :
    ∀ x ∈ ([c / 256 % 256, c % 256] : List Nat), x < 256 := by
  intro x hx
  rcases List.mem_cons.mp hx with h | h
  · subst h; exact Nat.mod_lt _ (by norm_num)
  · rcases List.mem_cons.mp h with h1 | h1
    · subst h1; exact Nat.mod_lt _ (by norm_num)
    · simp at h1

theorem shiftRight128_facts : ∀ j < 8, (128 >>> j) ≠ 0 ∧ (128 >>> j) < 256 := by
  decide

/-- C7: a single bit flip anywhere in the 2048 data bits of an on-tape
block (the 256 padded data bytes; the two CRC bytes are left unchanged)
makes the subsequent `_read_block` fail with `CRCError`. -/
theorem c7_crc_single_bit_flip (data : List Nat) (hne : data ≠ [])
    (hle : data.length ≤ 256) (hb : ∀ b ∈ data, b < 256)
    (k : Nat) (hk : k < 2048) (rest : List Nat) :
    readBlockB ((bitsOfBytes (writeBlockBytes data)).set k
        (1 - (bitsOfBytes (writeBlockBytes data)).getD k 0) ++ rest) =
      .error .crcError := by
  have hplen := padBlock_length hne hle
  have hplt := padBlock_lt hb
  have hclt := crc_lt (padBlock data)
  have hblen : (bitsOfBytes (padBlock data)).length = 2048 := by
    rw [bitsOfBytes_length, hplen]
  have hidx : k / 8 < (padBlock data).length := by omega
  have hj := shiftRight128_facts (k % 8) (Nat.mod_lt k (by norm_num))
  have hbval : (padBlock data).getD (k / 8) 0 =
      (padBlock data).get ⟨k / 8, hidx⟩ := by
    rw [List.getD_eq_getElem _ _ hidx, List.get_eq_getElem]
  have hblt : (padBlock data).getD (k / 8) 0 < 256 := by
    rw [hbval]
    exact hplt _ (List.get_mem _ _ hidx)
  rw [writeBlockBytes_eq, bitsOfBytes_append,
    List.set_append_left _ _ (by rw [hblen]; exact hk),
    List.getD_append _ _ _ _ (by rw [hblen]; exact hk),
    bitsOfBytes_set_flip (padBlock data) hplt k (by omega),
    List.append_assoc]
  have hflen : ((padBlock data).set (k / 8)
      ((padBlock data).getD (k / 8) 0 ^^^ (128 >>> (k % 8)))).length = 256 := by
    rw [List.length_set]
    exact hplen
  have hflt : ∀ x ∈ (padBlock data).set (k / 8)
      ((padBlock data).getD (k / 8) 0 ^^^ (128 >>> (k % 8))), x < 256 := by
    intro x hx
    rcases List.mem_or_eq_of_mem_set hx with h | h
    · exact hplt x h
    · subst h
      have h8 : (256:Nat) = 2^8 := by norm_num
      rw [h8]
      exact Nat.xor_lt_two_pow (by omega) (by omega)
  unfold readBlockB
  rw [readNBytes_bitsOfBytes_len hflen hflt _]
  dsimp only []
  rw [readNBytes_bitsOfBytes_len (show ([crc (padBlock data) / 256 % 256,
      crc (padBlock data) % 256] : List Nat).length = 2 from rfl)
    (crcBytes_lt _) rest]
  dsimp only []
  rw [crcBytes_getD _ hclt]
  have hcrcne : crc ((padBlock data).set (k / 8)
      ((padBlock data).getD (k / 8) 0 ^^^ (128 >>> (k % 8)))) ≠
      crc (padBlock data) := by
    rw [List.set_eq_take_cons_drop _ hidx]
    conv_rhs =>
      rw [← List.take_append_drop (k / 8) (padBlock data),
        List.drop_eq_getElem_cons hidx]
    rw [hbval, List.get_eq_getElem]
    exact crc_flip_ne _ _ _ _ hj.1 hj.2
  rw [if_neg (fun h => hcrcne h.symm)]

/-- Witness for C7: flipping tape bit 5 of a concrete written block is
rejected with a CRC error. -/
theorem c7_crc_single_bit_flip_witness :
    ([1, 2, 3] : List Nat) ≠ [] ∧ ([1, 2, 3] : List Nat).length ≤ 256 ∧
    (∀ b ∈ ([1, 2, 3] : List Nat), b < 256) ∧ (5 : Nat) < 2048 ∧
    readBlockB ((bitsOfBytes (writeBlockBytes [1, 2, 3])).set 5
        (1 - (bitsOfBytes (writeBlockBytes [1, 2, 3])).getD 5 0) ++ []) =
      .error .crcError :=
  ⟨by decide, by decide, by decide, by decide,
   c7_crc_single_bit_flip [1, 2, 3] (by decide) (by decide) (by decide)
     5 (by decide) []⟩

end Cassette

namespace PixelModel

/-- C5: divergence of the two code paths of `put_interval` at the default
mask `0xff`.  The plain-list variant performs the masked merge only under
`if mask != 0xff:` and has no `else`, so with the default mask it writes
nothing and returns the untouched scanline; the numpy variant applies the
same mask unconditionally and writes the colours.  On a one-pixel page
holding attribute 5, writing colour 3 with mask `0xff` leaves 5 in place in
the plain variant but stores 3 in the numpy variant. -/
theorem c5_put_interval_mask_ff :
    putInterval [[5]] 0 0 [3] 0xff = some ([[5]], [5]) ∧
    npPutInterval [[5]] 0 0 [3] 0xff = some ([[3]], [3]) := by
  constructor <;> rfl

/-- C4: divergence of the plain-list `move_rect` from both the
copy-to-temporary reference semantics and the numpy variant on a
vertically-overlapping downward move.  Moving rows 0–1 of the one-column
page `[[1],[2],[3]]` down by one row should give `[[0],[1],[2]]` (and the
reference semantics and the numpy variant both do), but the plain per-row
loop zeroes and reassigns row by row, so the second iteration reads the
row the first iteration already overwrote and produces `[[0],[0],[1]]`. -/
theorem c4_move_rect_overlap :
    moveRect [[1], [2], [3]] 0 0 0 1 0 1 = some [[0], [0], [1]] ∧
    moveRectTemp [[1], [2], [3]] 0 0 0 1 0 1 = some [[0], [1], [2]] ∧
    npMoveRect [[1], [2], [3]] 0 0 0 1 0 1 = [[0], [1], [2]] := by
  refine ⟨?_, ?_, ?_⟩ <;> rfl

end PixelModel

namespace Py

theorem idx_lt {n : Nat} {i : Int} {j : Nat} (h : idx n i = some j) : j < n := by
  unfold idx at h
  split at h
  · split at h
    · next h1 h2 => simp only [Option.some_inj] at h; omega
    · exact absurd h (by simp)
  · split at h
    · next h1 h2 => simp only [Option.some_inj] at h; omega
    · exact absurd h (by simp)

theorem idx_none {n : Nat} {i : Int} (h : i < -(n:Int) ∨ (n:Int) ≤ i) :
    idx n i = none := by
  unfold idx
  split
  · rw [if_neg (by omega)]
  · rw [if_neg (by omega)]

theorem get_none {l : List α} {i : Int}
    (h : i < -(l.length:Int) ∨ (l.length:Int) ≤ i) : get l i = none := by
  unfold get
  rw [idx_none h]
  rfl

theorem get_some_mem {l : List α} {i : Int} {a : α} (h : get l i = some a) :
    a ∈ l := by
  unfold get at h
  obtain ⟨j, hj, hget⟩ := Option.bind_eq_some.mp h
  exact List.get?_mem hget

theorem idx_nonneg {n : Nat} {i : Int} (h0 : 0 ≤ i) (hn : i < (n:Int)) :
    idx n i = some i.toNat := by
  unfold idx
  rw [if_pos h0, if_pos hn]

theorem idx_neg {n : Nat} {i : Int} (h0 : i < 0) (hn : -(n:Int) ≤ i) :
    idx n i = some (i + n).toNat := by
  unfold idx
  rw [if_neg (by omega), if_pos hn]

end Py

namespace PixelModel

theorem getPixel_out {buffer : List (List Nat)} {w h : Nat}
    (hh : buffer.length = h) (hw : ∀ row ∈ buffer, row.length = w)
    {x y : Int}
    (hout : x < -(w:Int) ∨ (w:Int) ≤ x ∨ y < -(h:Int) ∨ (h:Int) ≤ y) :
    getPixel buffer x y = 0 := by
  unfold getPixel
  cases hrow : Py.get buffer y with
  | none => rfl
  | some row =>
    have hrw : row.length = w := hw row (Py.get_some_mem hrow)
    dsimp only []
    cases hx : Py.get row x with
    | none => rfl
    | some a =>
      exfalso
      rcases hout with h1 | h1 | h1 | h1
      · rw [Py.get_none (show x < -(row.length:Int) ∨ (row.length:Int) ≤ x by
          rw [hrw]; omega)] at hx
        simp at hx
      · rw [Py.get_none (show x < -(row.length:Int) ∨ (row.length:Int) ≤ x by
          rw [hrw]; omega)] at hx
        simp at hx
      · rw [Py.get_none (show y < -(buffer.length:Int) ∨
          (buffer.length:Int) ≤ y by rw [hh]; omega)] at hrow
        simp at hrow
      · rw [Py.get_none (show y < -(buffer.length:Int) ∨
          (buffer.length:Int) ≤ y by rw [hh]; omega)] at hrow
        simp at hrow

theorem putPixel_out {buffer : List (List Nat)} {w h : Nat}
    (hh : buffer.length = h) (hw : ∀ row ∈ buffer, row.length = w)
    {x y : Int}
    (hout : x < -(w:Int) ∨ (w:Int) ≤ x ∨ y < -(h:Int) ∨ (h:Int) ≤ y)
    (attr : Nat) : putPixel buffer x y attr = buffer := by
  unfold putPixel
  cases hj : Py.idx buffer.length y with
  | none => rfl
  | some j =>
    have hjlt : j < buffer.length := Py.idx_lt hj
    have hrw : (buffer.getD j []).length = w := by
      rw [List.getD_eq_getElem _ _ hjlt]
      exact hw _ (List.getElem_mem hjlt)
    dsimp only []
    cases hi : Py.idx (buffer.getD j []).length x with
    | none => rfl
    | some i =>
      exfalso
      rcases hout with h1 | h1 | h1 | h1
      · rw [Py.idx_none (by rw [hrw]; omega)] at hi
        simp at hi
      · rw [Py.idx_none (by rw [hrw]; omega)] at hi
        simp at hi
      · rw [Py.idx_none (by rw [hh]; omega)] at hj
        simp at hj
      · rw [Py.idx_none (by rw [hh]; omega)] at hj
        simp at hj

theorem getPixel_wrap {buffer : List (List Nat)} {w h : Nat}
    (hh : buffer.length = h) (hw : ∀ row ∈ buffer, row.length = w)
    {x y : Int} (hx0 : -(w:Int) ≤ x) (hx1 : x < 0) (hy0 : 0 ≤ y)
    (hy1 : y < (h:Int)) :
    getPixel buffer x y = getPixel buffer (x + w) y := by
  unfold getPixel
  cases hrow : Py.get buffer y with
  | none => rfl
  | some row =>
    have hrw : row.length = w := hw row (Py.get_some_mem hrow)
    have hgets : Py.get row x = Py.get row (x + (w:Int)) := by
      unfold Py.get
      rw [Py.idx_neg hx1 (by rw [hrw]; omega),
        Py.idx_nonneg (by omega) (by rw [hrw]; omega)]
      rw [hrw]
    dsimp only []
    rw [hgets]

theorem getRectRows_none {buffer : List (List Nat)} {x0 x1 : Int} :
    ∀ {ys : List Int}, (∃ y ∈ ys, Py.get buffer y = none) →
      getRectRows buffer x0 x1 ys = none := by
  intro ys
  induction ys with
  | nil => intro hex; simp at hex
  | cons y ys ih =>
    intro hex
    unfold getRectRows
    cases hy : Py.get buffer y with
    | none => rfl
    | some row =>
      dsimp only []
      obtain ⟨z, hz, hnone⟩ := hex
      rcases List.mem_cons.mp hz with h1 | h1
      · subst h1; rw [hy] at hnone; simp at hnone
      · rw [ih ⟨z, h1, hnone⟩]

theorem getRect_row_overflow {buffer : List (List Nat)} {h : Nat}
    (hh : buffer.length = h) {x0 y0 x1 y1 : Int}
    (hy0 : 0 ≤ y0) (hle : y0 ≤ y1) (hover : (h:Int) ≤ y1) :
    getRect buffer x0 y0 x1 y1 =
      List.replicate (y1 - y0 + 1).toNat (List.replicate (x1 - x0 + 1).toNat 0) := by
  have hmem : y1 ∈ Py.intRange y0 (y1 + 1) := by
    unfold Py.intRange
    simp only [List.mem_map, List.mem_range]
    exact ⟨(y1 - y0).toNat, by omega, by omega⟩
  have hnone : Py.get buffer y1 = none := Py.get_none
    (show y1 < -(buffer.length:Int) ∨ (buffer.length:Int) ≤ y1 by
      rw [hh]; omega)
  unfold getRect
  rw [getRectRows_none ⟨y1, hmem, hnone⟩]

theorem mapIdx_getD (f : Nat → α → α) (l : List α) (r : Nat) (d : α) :
    (l.mapIdx f).getD r d = if hr : r < l.length then f r (l.get ⟨r, hr⟩) else d := by
  split
  · next hr =>
    rw [List.getD_eq_getElem _ _ (by simpa using hr), List.getElem_mapIdx,
      List.get_eq_getElem]
  · next hr =>
    rw [List.getD_eq_getElem?_getD, List.getElem?_eq_none (by simpa using hr)]
    rfl

theorem npFillRect_frame (buffer : List (List Nat)) (x0 y0 x1 y1 : Int)
    (attr : Nat) (r c : Nat)
    (hout : r < Py.sliceBound buffer.length y0 ∨
      Py.sliceBound buffer.length (y1 + 1) ≤ r ∨
      c < Py.sliceBound (buffer.getD r []).length x0 ∨
      Py.sliceBound (buffer.getD r []).length (x1 + 1) ≤ c) :
    ((npFillRect buffer x0 y0 x1 y1 attr).getD r []).getD c 0 =
      (buffer.getD r []).getD c 0 := by
  unfold npFillRect
  split
  · rfl
  · dsimp only []
    rw [mapIdx_getD]
    split
    · next hr =>
      have hbr : buffer.getD r [] = buffer.get ⟨r, hr⟩ := by
        rw [List.getD_eq_getElem _ _ hr, List.get_eq_getElem]
      split
      · next hry =>
        rw [mapIdx_getD]
        split
        · next hc =>
          have hcout : c < Py.sliceBound (buffer.get ⟨r, hr⟩).length x0 ∨
              Py.sliceBound (buffer.get ⟨r, hr⟩).length (x1 + 1) ≤ c := by
            rw [← hbr]
            rcases hout with h1 | h1 | h1 | h1
            · omega
            · omega
            · exact Or.inl h1
            · exact Or.inr h1
          rw [if_neg (by omega), hbr, List.getD_eq_getElem _ _ hc,
            List.get_eq_getElem]
        · next hc =>
          rw [hbr, List.getD_eq_getElem?_getD,
            List.getElem?_eq_none (by omega)]
          rfl
      · next hry => rw [hbr]
    · next hr =>
      have hbr : buffer.getD r [] = [] := by
        rw [List.getD_eq_getElem?_getD, List.getElem?_eq_none (by omega)]
        rfl
      rw [hbr]

/-- C3: bounds behaviour of the pixel-buffer operations as the code
actually has it.  Scalar accesses are no-ops (reads return 0) only outside
the Python index range — negative coordinates within one buffer extent wrap
around to the far edge instead.  The plain-list `get_rect` produces the
zero-filled array of the requested shape when a scalar row index is out of
range, while the numpy `fill_rect` clips: every pixel outside the clipped
intersection is left unchanged (and the operation never raises). -/
theorem c3_pixel_bounds (buffer : List (List Nat)) (w h : Nat)
    (hh : buffer.length = h) (hw : ∀ row ∈ buffer, row.length = w) :
    (∀ x y : Int,
      (x < -(w:Int) ∨ (w:Int) ≤ x ∨ y < -(h:Int) ∨ (h:Int) ≤ y) →
      getPixel buffer x y = 0 ∧ ∀ attr, putPixel buffer x y attr = buffer) ∧
    (∀ x y : Int, -(w:Int) ≤ x → x < 0 → 0 ≤ y → y < (h:Int) →
      getPixel buffer x y = getPixel buffer (x + w) y) ∧
    (∀ x0 y0 x1 y1 : Int, 0 ≤ y0 → y0 ≤ y1 → (h:Int) ≤ y1 →
      getRect buffer x0 y0 x1 y1 =
        List.replicate (y1 - y0 + 1).toNat
          (List.replicate (x1 - x0 + 1).toNat 0)) ∧
    (∀ (x0 y0 x1 y1 : Int) (attr : Nat) (r c : Nat),
      (r < Py.sliceBound buffer.length y0 ∨
        Py.sliceBound buffer.length (y1 + 1) ≤ r ∨
        c < Py.sliceBound (buffer.getD r []).length x0 ∨
        Py.sliceBound (buffer.getD r []).length (x1 + 1) ≤ c) →
      ((npFillRect buffer x0 y0 x1 y1 attr).getD r []).getD c 0 =
        (buffer.getD r []).getD c 0) := by
  refine ⟨?_, ?_, ?_, ?_⟩
  · intro x y hout
    exact ⟨getPixel_out hh hw hout, putPixel_out hh hw hout⟩
  · intro x y hx0 hx1 hy0 hy1
    exact getPixel_wrap hh hw hx0 hx1 hy0 hy1
  · intro x0 y0 x1 y1 hy0 hle hover
    exact getRect_row_overflow hh hy0 hle hover
  · intro x0 y0 x1 y1 attr r c hout
    exact npFillRect_frame buffer x0 y0 x1 y1 attr r c hout

/-- Counterexample to C3 as stated: the coordinate (-1, 0) lies outside
[0, width) x [0, height) of the 2x2 page, yet `get_pixel` returns the last
pixel of row 0 (Python wraparound) and `put_pixel` overwrites it; a
rectangle overflowing only in the columns makes the plain `get_rect`
return clipped (here empty) rows rather than a zero-filled 2x2 array; and
the numpy `get_rect` of a partially-out-of-range rectangle returns the
clipped subarray, not a zero-filled array of the requested shape. -/
theorem c3_negative_index_counterexample :
    getPixel [[1, 2], [3, 4]] (-1) 0 = 2 ∧
    putPixel [[1, 2], [3, 4]] (-1) 0 9 = [[1, 9], [3, 4]] ∧
    getRect [[1, 2], [3, 4]] 3 0 4 1 = [[], []] ∧
    npGetRect [[1, 2], [3, 4]] (-5) 0 0 5 = [[1], [3]] := by
  refine ⟨?_, ?_, ?_, ?_⟩ <;> rfl

/-- Witness for C3 at a concrete page. -/
theorem c3_pixel_bounds_witness :
    ([[1, 2], [3, 4]] : List (List Nat)).length = 2 ∧
    (∀ row ∈ ([[1, 2], [3, 4]] : List (List Nat)), row.length = 2) ∧
    getPixel [[1, 2], [3, 4]] 5 0 = 0 :=
  ⟨rfl, by decide,
   ((c3_pixel_bounds [[1, 2], [3, 4]] 2 2 rfl (by decide)).1 5 0
     (by decide)).1⟩

end PixelModel

namespace TextModel

theorem getD_set_ne (l : List α) (i j : Nat) (a d : α) (h : i ≠ j) :
    (l.set i a).getD j d = l.getD j d := by
  rw [List.getD_eq_getElem?_getD, List.getElem?_set_ne h,
    ← List.getD_eq_getElem?_getD]

theorem getD_set_self (l : List α) (i : Nat) (a d : α) (h : i < l.length) :
    (l.set i a).getD i d = a := by
  rw [List.getD_eq_getElem?_getD, List.getElem?_set_self',
    List.getElem?_eq_getElem h]
  rfl

/-- Pointwise effect of the row-copy fold of `copy_page`: the fold writes
exactly the rows with index below both the height and the destination row
count, and touches nothing else. -/
theorem copy_foldl (srcRows : List TextRow) : ∀ (n : Nat) (rows0 : List TextRow),
    ((List.range n).foldl (fun rows x =>
        rows.set x (copyRowInto (srcRows.getD x emptyRow)
          (rows.getD x emptyRow))) rows0).length = rows0.length ∧
    (∀ x, n ≤ x ∨ rows0.length ≤ x →
      ((List.range n).foldl (fun rows x =>
        rows.set x (copyRowInto (srcRows.getD x emptyRow)
          (rows.getD x emptyRow))) rows0).getD x emptyRow =
        rows0.getD x emptyRow) ∧
    (∀ x, x < n → x < rows0.length →
      ((List.range n).foldl (fun rows x =>
        rows.set x (copyRowInto (srcRows.getD x emptyRow)
          (rows.getD x emptyRow))) rows0).getD x emptyRow =
        copyRowInto (srcRows.getD x emptyRow) (rows0.getD x emptyRow)) := by
  intro n
  induction n with
  | zero =>
    intro rows0
    exact ⟨rfl, fun x _ => rfl, fun x hx _ => absurd hx (by omega)⟩
  | succ m ih =>
    intro rows0
    obtain ⟨ihlen, ihout, ihin⟩ := ih rows0
    rw [List.range_succ, List.foldl_append, List.foldl_cons, List.foldl_nil]
    refine ⟨?_, ?_, ?_⟩
    · rw [List.length_set]
      exact ihlen
    · intro x hx
      by_cases hxm : x = m
      · subst hxm
        have hlen : rows0.length ≤ x := by
          rcases hx with h | h
          · omega
          · exact h
        rw [List.set_eq_of_length_le (by rw [ihlen]; omega)]
        exact ihout x (Or.inr hlen)
      · rw [getD_set_ne _ _ _ _ _ (fun hh => hxm hh.symm)]
        refine ihout x ?_
        rcases hx with h | h
        · exact Or.inl (by omega)
        · exact Or.inr h
    · intro x hx hxlen
      by_cases hxm : x = m
      · subst hxm
        rw [getD_set_self _ _ _ _ (by rw [ihlen]; exact hxlen)]
        rw [ihout x (Or.inl (le_refl _))]
      · have hxm2 : x < m := by omega
        rw [getD_set_ne _ _ _ _ _ (fun hh => hxm hh.symm)]
        exact ihin x hxm2 hxlen

/-- Writing a character to one page of a `TextBuffer` leaves every other
page untouched. -/
theorem bufferPut_other (b : TextBuffer) (pagenum crow ccol c cattr : Nat)
    (oneOnly force : Bool) (p : Nat) (hp : p ≠ pagenum) :
    (bufferPut b pagenum crow ccol c cattr oneOnly force).pages.getD p
      emptyPage = b.pages.getD p emptyPage := by
  unfold bufferPut
  dsimp only []
  exact getD_set_ne _ _ _ _ _ (fun hh => hp hh.symm)

/-- C10: `copy_page` copies, for every row index below the height, the
cell buffer, the end marker and the wrap flag from the source page's row to
the destination page's row, but leaves the destination row's double-width
marker array as it was (the markers are not copied); every other page of
the buffer is untouched, and because the cells are copied by value, a
subsequent `put_char_attr` on the destination page leaves the source page
(indeed every other page) unchanged. -/
theorem c10_copy_page (b : TextBuffer) (src dst : Nat)
    (hdst : dst < b.pages.length)
    (hrows : (b.pages.getD dst emptyPage).rows.length = b.height) :
    (copyPage b src dst).pages.length = b.pages.length ∧
    (∀ p, p ≠ dst → (copyPage b src dst).pages.getD p emptyPage =
      b.pages.getD p emptyPage) ∧
    (∀ x, x < b.height →
      (((copyPage b src dst).pages.getD dst emptyPage).rows.getD x
          emptyRow).buf =
        (((b.pages.getD src emptyPage)).rows.getD x emptyRow).buf ∧
      (((copyPage b src dst).pages.getD dst emptyPage).rows.getD x
          emptyRow).rowEnd =
        (((b.pages.getD src emptyPage)).rows.getD x emptyRow).rowEnd ∧
      (((copyPage b src dst).pages.getD dst emptyPage).rows.getD x
          emptyRow).wrap =
        (((b.pages.getD src emptyPage)).rows.getD x emptyRow).wrap ∧
      (((copyPage b src dst).pages.getD dst emptyPage).rows.getD x
          emptyRow).double =
        (((b.pages.getD dst emptyPage)).rows.getD x emptyRow).double) ∧
    (∀ (crow ccol c cattr : Nat) (oneOnly force : Bool) (p : Nat), p ≠ dst →
      (bufferPut (copyPage b src dst) dst crow ccol c cattr oneOnly
          force).pages.getD p emptyPage =
        (copyPage b src dst).pages.getD p emptyPage) := by
  refine ⟨?_, ?_, ?_, ?_⟩
  · unfold copyPage
    dsimp only []
    rw [List.length_set]
  · intro p hp
    unfold copyPage
    dsimp only []
    exact getD_set_ne _ _ _ _ _ (fun hh => hp hh.symm)
  · intro x hx
    have H := copy_foldl (b.pages.getD src emptyPage).rows b.height
      (b.pages.getD dst emptyPage).rows
    unfold copyPage
    dsimp only []
    rw [getD_set_self _ _ _ _ hdst]
    dsimp only []
    rw [H.2.2 x hx (by omega)]
    exact ⟨rfl, rfl, rfl, rfl⟩
  · intro crow ccol c cattr oneOnly force p hp
    exact bufferPut_other _ _ _ _ _ _ _ _ _ hp

end TextModel

namespace TextModel

def sampleCodepage : Codepage :=
  ⟨false, fun _ => false, fun _ => false, false, fun _ _ _ => false⟩

def sampleRowA : TextRow := ⟨[(65, 7)], [1], 1, true⟩

def sampleRowB : TextRow := ⟨[(66, 2)], [2], 0, false⟩

def sampleBuffer : TextBuffer :=
  ⟨[⟨[sampleRowA], 1, 1, 0, false, sampleCodepage⟩,
    ⟨[sampleRowB], 1, 1, 1, false, sampleCodepage⟩], 1, 1⟩

/-- Witness for C10 on a concrete two-page buffer. -/
theorem c10_copy_page_witness :
    (1 : Nat) < sampleBuffer.pages.length ∧
    (sampleBuffer.pages.getD 1 emptyPage).rows.length = sampleBuffer.height ∧
    ((((copyPage sampleBuffer 0 1).pages.getD 1 emptyPage).rows.getD 0
        emptyRow).buf =
      (((sampleBuffer.pages.getD 0 emptyPage)).rows.getD 0 emptyRow).buf ∧
     (((copyPage sampleBuffer 0 1).pages.getD 1 emptyPage).rows.getD 0
        emptyRow).rowEnd =
      (((sampleBuffer.pages.getD 0 emptyPage)).rows.getD 0 emptyRow).rowEnd ∧
     (((copyPage sampleBuffer 0 1).pages.getD 1 emptyPage).rows.getD 0
        emptyRow).wrap =
      (((sampleBuffer.pages.getD 0 emptyPage)).rows.getD 0 emptyRow).wrap ∧
     (((copyPage sampleBuffer 0 1).pages.getD 1 emptyPage).rows.getD 0
        emptyRow).double =
      (((sampleBuffer.pages.getD 1 emptyPage)).rows.getD 0 emptyRow).double) :=
  ⟨by decide, by rfl,
   (c10_copy_page sampleBuffer 0 1 (by decide) (by rfl)).2.2.1 0 (by decide)⟩

end TextModel

namespace TextModel

/-- Invariant preservation through the forward rescan loop of
`put_char_attr`: if on entry every lead marker carries a lead byte and
every lead marker other than possibly the one at the scan position is
followed by its trail marker (and the cell two to the left of the scan
position carries no lead marker), then on exit every lead marker carries a
lead byte and every lead marker is followed by its trail marker. -/
theorem dbcsScan_inv (cp : Codepage) (width origCol : Nat) (oneOnly : Bool)
    (buf : List (Nat × Nat)) : ∀ (n ccol : Nat) (double : List Nat)
    (start stop : Int), width - ccol ≤ n → 1 ≤ ccol →
    double.length = width →
    (width ≤ ccol → double.getD (ccol - 1) 0 ≠ 1) →
    (∀ p, double.getD p 0 = 1 → cp.lead (buf.getD p (0, 0)).1 = true) →
    (∀ p, p ≠ ccol - 1 → double.getD p 0 = 1 → double.getD (p + 1) 0 = 2) →
    (2 ≤ ccol → double.getD (ccol - 2) 0 ≠ 1) →
    (dbcsScan cp width origCol oneOnly buf ccol double start stop).1.length =
      width ∧
    (∀ p, (dbcsScan cp width origCol oneOnly buf ccol double start
        stop).1.getD p 0 = 1 → cp.lead (buf.getD p (0, 0)).1 = true) ∧
    (∀ p, (dbcsScan cp width origCol oneOnly buf ccol double start
        stop).1.getD p 0 = 1 →
      (dbcsScan cp width origCol oneOnly buf ccol double start
        stop).1.getD (p + 1) 0 = 2) := by
  intro n
  induction n with
  | zero =>
    intro ccol double start stop hn h1 hlen hE hL1 hL2 hL3
    have hcw : ¬ ccol < width := by omega
    rw [dbcsScan, dif_neg hcw]
    refine ⟨hlen, hL1, ?_⟩
    intro p hp
    by_cases hpc : p = ccol - 1
    · subst hpc; exact absurd hp (hE (by omega))
    · exact hL2 p hpc hp
  | succ m ih =>
    intro ccol double start stop hn h1 hlen hE hL1 hL2 hL3
    by_cases hcw : ccol < width
    case neg =>
      rw [dbcsScan, dif_neg hcw]
      refine ⟨hlen, hL1, ?_⟩
      intro p hp
      by_cases hpc : p = ccol - 1
      · subst hpc; exact absurd hp (hE (by omega))
      · exact hL2 p hpc hp
    case pos =>
      rw [dbcsScan, dif_pos hcw]
      dsimp only []
      by_cases hlead : (cp.lead (buf.getD (ccol - 1) (0, 0)).1 &&
          cp.trail (buf.getD ccol (0, 0)).1) = true
      · rw [if_pos hlead]
        by_cases hstable : double.getD (ccol - 1) 0 = 1 ∧
            double.getD ccol 0 = 2 ∧ origCol < ccol
        · rw [if_pos hstable]
          refine ⟨hlen, hL1, ?_⟩
          intro p hp
          by_cases hpc : p = ccol - 1
          · subst hpc
            rw [show ccol - 1 + 1 = ccol by omega]
            exact hstable.2.1
          · exact hL2 p hpc hp
        · rw [if_neg hstable]
          have hlen1 : ((double.set (ccol - 1) 1).set ccol 2).length = width := by
            rw [List.length_set, List.length_set, hlen]
          have hgc : ((double.set (ccol - 1) 1).set ccol 2).getD ccol 0 = 2 :=
            getD_set_self _ _ _ _ (by rw [List.length_set, hlen]; omega)
          have hgc1 : ((double.set (ccol - 1) 1).set ccol 2).getD (ccol - 1) 0
              = 1 := by
            rw [getD_set_ne _ _ _ _ _ (by omega)]
            exact getD_set_self _ _ _ _ (by rw [hlen]; omega)
          have hgother : ∀ p, p ≠ ccol - 1 → p ≠ ccol →
              ((double.set (ccol - 1) 1).set ccol 2).getD p 0 =
                double.getD p 0 := by
            intro p hp1 hp2
            rw [getD_set_ne _ _ _ _ _ (fun hh => hp2 hh.symm),
              getD_set_ne _ _ _ _ _ (fun hh => hp1 hh.symm)]
          have hL1p : ∀ p,
              ((double.set (ccol - 1) 1).set ccol 2).getD p 0 = 1 →
              cp.lead (buf.getD p (0, 0)).1 = true := by
            intro p hp
            by_cases hpc : p = ccol - 1
            · subst hpc
              exact ((Bool.and_eq_true _ _).mp hlead).1
            · by_cases hpc2 : p = ccol
              · subst hpc2
                rw [hgc] at hp
                exact absurd hp (by omega)
              · rw [hgother p hpc hpc2] at hp
                exact hL1 p hp
          have hL2p : ∀ p,
              ((double.set (ccol - 1) 1).set ccol 2).getD p 0 = 1 →
              ((double.set (ccol - 1) 1).set ccol 2).getD (p + 1) 0 = 2 := by
            intro p hp
            by_cases hpc : p = ccol - 1
            · subst hpc
              rw [show ccol - 1 + 1 = ccol by omega, hgc]
            · by_cases hpc2 : p = ccol
              · subst hpc2
                rw [hgc] at hp
                exact absurd hp (by omega)
              · rw [hgother p hpc hpc2] at hp
                by_cases hq : p + 1 = ccol - 1
                · refine absurd hp ?_
                  have h2 : 2 ≤ ccol := by omega
                  have hpe : p = ccol - 2 := by omega
                  rw [hpe]
                  exact hL3 h2
                · have hq2 : p + 1 ≠ ccol := by omega
                  rw [hgother (p + 1) hq hq2]
                  exact hL2 p hpc hp
          by_cases hexit : width ≤ ccol + 2 ∨
              (oneOnly = true ∧ origCol < ccol + 2)
          · rw [if_pos hexit]
            exact ⟨hlen1, hL1p, hL2p⟩
          · rw [if_neg hexit]
            have hex1 : ¬ width ≤ ccol + 2 := fun hh => hexit (Or.inl hh)
            exact ih (ccol + 2) ((double.set (ccol - 1) 1).set ccol 2) _ _
              (by omega) (by omega) hlen1
              (fun hw => absurd hw (by omega))
              hL1p (fun p _ => hL2p p)
              (by intro h2
                  rw [show ccol + 2 - 2 = ccol by omega, hgc]
                  omega)
      · rw [if_neg hlead]
        by_cases hstable : double.getD (ccol - 1) 0 = 0 ∧ origCol < ccol
        · rw [if_pos hstable]
          refine ⟨hlen, hL1, ?_⟩
          intro p hp
          by_cases hpc : p = ccol - 1
          · subst hpc
            rw [hstable.1] at hp
            exact absurd hp (by omega)
          · exact hL2 p hpc hp
        · rw [if_neg hstable]
          have hlen0 : (double.set (ccol - 1) 0).length = width := by
            rw [List.length_set, hlen]
          have hg0 : (double.set (ccol - 1) 0).getD (ccol - 1) 0 = 0 :=
            getD_set_self _ _ _ _ (by rw [hlen]; omega)
          have hgother0 : ∀ p, p ≠ ccol - 1 →
              (double.set (ccol - 1) 0).getD p 0 = double.getD p 0 := by
            intro p hp1
            rw [getD_set_ne _ _ _ _ _ (fun hh => hp1 hh.symm)]
          have hL10 : ∀ p, (double.set (ccol - 1) 0).getD p 0 = 1 →
              cp.lead (buf.getD p (0, 0)).1 = true := by
            intro p hp
            by_cases hpc : p = ccol - 1
            · subst hpc
              rw [hg0] at hp
              exact absurd hp (by omega)
            · rw [hgother0 p hpc] at hp
              exact hL1 p hp
          have hL20 : ∀ p, (double.set (ccol - 1) 0).getD p 0 = 1 →
              (double.set (ccol - 1) 0).getD (p + 1) 0 = 2 := by
            intro p hp
            by_cases hpc : p = ccol - 1
            · subst hpc
              rw [hg0] at hp
              exact absurd hp (by omega)
            · rw [hgother0 p hpc] at hp
              by_cases hq : p + 1 = ccol - 1
              · refine absurd hp ?_
                have h2 : 2 ≤ ccol := by omega
                have hpe : p = ccol - 2 := by omega
                rw [hpe]
                exact hL3 h2
              · rw [hgother0 (p + 1) hq]
                exact hL2 p hpc hp
          by_cases hexit : width ≤ ccol + 1 ∨
              (oneOnly = true ∧ origCol < ccol + 1)
          · rw [if_pos hexit]
            exact ⟨hlen0, hL10, hL20⟩
          · rw [if_neg hexit]
            have hex1 : ¬ width ≤ ccol + 1 := fun hh => hexit (Or.inl hh)
            exact ih (ccol + 1) (double.set (ccol - 1) 0) _ _
              (by omega) (by omega) hlen0
              (fun hw => absurd hw (by omega))
              hL10 (fun p _ => hL20 p)
              (by intro h2
                  rw [show ccol + 1 - 2 = ccol - 1 by omega, hg0]
                  omega)

end TextModel

namespace TextModel

/-- The per-row well-formedness the rescan loop maintains: the marker
array spans the row, every lead marker sits on a lead byte, and every lead
marker is immediately followed by a trail marker. -/
def rowPaired (cp : Codepage) (w : Nat) (row : TextRow) : Prop :=
  row.double.length = w ∧
  (∀ p, row.double.getD p 0 = 1 → cp.lead (row.buf.getD p (0, 0)).1 = true) ∧
  (∀ p, row.double.getD p 0 = 1 → row.double.getD (p + 1) 0 = 2)

theorem putCharAttr_rows_length (page : TextPage) (crow ccol c cattr : Nat)
    (oneOnly force : Bool) :
    (putCharAttr page crow ccol c cattr oneOnly force).1.rows.length =
      page.rows.length := by
  unfold putCharAttr
  by_cases hflag : (page.codepage.dbcs && page.doDbcs) = true
  · rw [if_pos hflag]
    dsimp only []
    rw [List.length_set]
  · rw [if_neg hflag]
    dsimp only []
    rw [List.length_set]

theorem putCharAttr_fields (page : TextPage) (crow ccol c cattr : Nat)
    (oneOnly force : Bool) :
    (putCharAttr page crow ccol c cattr oneOnly force).1.width = page.width ∧
    (putCharAttr page crow ccol c cattr oneOnly force).1.codepage =
      page.codepage ∧
    (putCharAttr page crow ccol c cattr oneOnly force).1.doDbcs =
      page.doDbcs := by
  unfold putCharAttr
  by_cases hflag : (page.codepage.dbcs && page.doDbcs) = true
  · rw [if_pos hflag]
    exact ⟨rfl, rfl, rfl⟩
  · rw [if_neg hflag]
    exact ⟨rfl, rfl, rfl⟩

/-- One `put_char_attr` call (with box protection off and DBCS active)
preserves `rowPaired` on every row. -/
theorem putCharAttr_rowPaired (page : TextPage)
    (hbox : page.codepage.boxProtect = false)
    (hflag : (page.codepage.dbcs && page.doDbcs) = true)
    (crow ccol c cattr : Nat) (oneOnly force : Bool)
    (hc1 : 1 ≤ ccol) (hc2 : ccol ≤ page.width)
    (hinv : ∀ r, r < page.rows.length →
      rowPaired page.codepage page.width (page.rows.getD r emptyRow)) :
    ∀ r, r < (putCharAttr page crow ccol c cattr oneOnly force).1.rows.length →
      rowPaired page.codepage page.width
        ((putCharAttr page crow ccol c cattr oneOnly
          force).1.rows.getD r emptyRow) := by
  intro r hr
  rw [putCharAttr_rows_length] at hr
  unfold putCharAttr
  rw [if_pos hflag]
  dsimp only []
  rw [hbox]
  rw [if_neg (by simp)]
  by_cases hcr : crow - 1 = r
  case neg =>
    rw [getD_set_ne _ _ _ _ _ hcr]
    exact hinv r hr
  case pos =>
    subst hcr
    rw [getD_set_self _ _ _ _ hr]
    obtain ⟨hlenD, hL1row, hL2row⟩ := hinv (crow - 1) hr
    have hW1 : 1 ≤ page.width := by omega
    have hccl : ccol - 1 < (page.rows.getD (crow - 1) emptyRow).double.length := by
      rw [hlenD]; omega
    have hD1ne : ((page.rows.getD (crow - 1) emptyRow).double.set (ccol - 1)
        0).getD (ccol - 1) 0 = 0 := getD_set_self _ _ _ _ hccl
    have hD1len : ((page.rows.getD (crow - 1) emptyRow).double.set (ccol - 1)
        0).length = page.width := by
      rw [List.length_set, hlenD]
    have hD1other : ∀ p, p ≠ ccol - 1 →
        ((page.rows.getD (crow - 1) emptyRow).double.set (ccol - 1) 0).getD p 0
          = (page.rows.getD (crow - 1) emptyRow).double.getD p 0 :=
      fun p hp => getD_set_ne _ _ _ _ _ (fun hh => hp hh.symm)
    have hB1other : ∀ p, p ≠ ccol - 1 →
        ((page.rows.getD (crow - 1) emptyRow).buf.set (ccol - 1)
          (c, cattr)).getD p (0, 0) =
          (page.rows.getD (crow - 1) emptyRow).buf.getD p (0, 0) :=
      fun p hp => getD_set_ne _ _ _ _ _ (fun hh => hp hh.symm)
    have hL1s : ∀ p, ((page.rows.getD (crow - 1) emptyRow).double.set
        (ccol - 1) 0).getD p 0 = 1 →
        page.codepage.lead (((page.rows.getD (crow - 1) emptyRow).buf.set
          (ccol - 1) (c, cattr)).getD p (0, 0)).1 = true := by
      intro p hp
      by_cases hpc : p = ccol - 1
      · subst hpc
        rw [hD1ne] at hp
        exact absurd hp (by omega)
      · rw [hB1other p hpc]
        rw [hD1other p hpc] at hp
        exact hL1row p hp
    by_cases hsb : 1 < ccol ∧
        ((page.rows.getD (crow - 1) emptyRow).double.set (ccol - 1) 0).getD
          (ccol - 2) 0 ≠ 2 ∧
        (page.codepage.trail (((page.rows.getD (crow - 1) emptyRow).buf.set
            (ccol - 1) (c, cattr)).getD (ccol - 1) (0, 0)).1 = true ∨
         page.codepage.lead (((page.rows.getD (crow - 1) emptyRow).buf.set
            (ccol - 1) (c, cattr)).getD (ccol - 2) (0, 0)).1 = true)
    case pos =>
      rw [if_pos hsb]
      dsimp only []
      have HS := dbcsScan_inv page.codepage page.width ccol oneOnly
        ((page.rows.getD (crow - 1) emptyRow).buf.set (ccol - 1) (c, cattr))
        page.width (ccol - 1)
        ((page.rows.getD (crow - 1) emptyRow).double.set (ccol - 1) 0)
        ((ccol : Int) - 1) ((ccol : Int) + 1)
        (by omega) (by omega) hD1len
        (fun hw => absurd hw (by omega))
        hL1s
        (by intro p hpc hp
            by_cases hpc1 : p = ccol - 1
            · subst hpc1
              rw [hD1ne] at hp
              exact absurd hp (by omega)
            · rw [hD1other p hpc1] at hp
              by_cases hq : p + 1 = ccol - 1
              · exact absurd (by omega : p = ccol - 2) (by
                  intro hh
                  exact hpc (by rw [hh]; rw [show ccol - 1 - 1 = ccol - 2 by
                    omega]))
              · rw [hD1other (p + 1) hq]
                exact hL2row p hp)
        (by intro h2 hq
            rw [show ccol - 1 - 2 = ccol - 3 by omega] at hq
            have hne3 : ccol - 3 ≠ ccol - 1 := by omega
            rw [hD1other _ hne3] at hq
            have hpair := hL2row (ccol - 3) hq
            apply hsb.2.1
            rw [hD1other _ (by omega : ccol - 2 ≠ ccol - 1)]
            rw [show ccol - 3 + 1 = ccol - 2 by omega] at hpair
            exact hpair)
      exact ⟨HS.1, HS.2.1, HS.2.2⟩
    case neg =>
      rw [if_neg hsb]
      dsimp only []
      have hcm2 : 2 ≤ ccol →
          ((page.rows.getD (crow - 1) emptyRow).double.set (ccol - 1) 0).getD
            (ccol - 2) 0 ≠ 1 := by
        intro hcc hq
        apply hsb
        refine ⟨by omega, by rw [hq]; omega, Or.inr ?_⟩
        have hne : ccol - 2 ≠ ccol - 1 := by omega
        rw [hB1other _ hne]
        rw [hD1other _ hne] at hq
        exact hL1row _ hq
      have HS := dbcsScan_inv page.codepage page.width ccol oneOnly
        ((page.rows.getD (crow - 1) emptyRow).buf.set (ccol - 1) (c, cattr))
        page.width ccol
        ((page.rows.getD (crow - 1) emptyRow).double.set (ccol - 1) 0)
        (ccol : Int) ((ccol : Int) + 1)
        (by omega) (by omega) hD1len
        (fun _ => by rw [hD1ne]; omega)
        hL1s
        (by intro p hpc hp
            by_cases hq : p + 1 = ccol - 1
            · have h2 : 2 ≤ ccol := by omega
              have hpe : p = ccol - 2 := by omega
              rw [hpe] at hp
              exact absurd hp (hcm2 h2)
            · rw [hD1other (p + 1) hq]
              rw [hD1other p hpc] at hp
              exact hL2row p hp)
        (fun h2 => hcm2 h2)
      exact ⟨HS.1, HS.2.1, HS.2.2⟩

end TextModel

namespace TextModel

theorem putCharAttr_zero (page : TextPage)
    (hflag : (page.codepage.dbcs && page.doDbcs) = false)
    (crow ccol c cattr : Nat) (oneOnly force : Bool)
    (hz : ∀ r p, (page.rows.getD r emptyRow).double.getD p 0 = 0) :
    ∀ r p, (((putCharAttr page crow ccol c cattr oneOnly force).1).rows.getD r
      emptyRow).double.getD p 0 = 0 := by
  intro r p
  unfold putCharAttr
  rw [hflag]
  rw [if_neg (by simp)]
  dsimp only []
  by_cases hcr : crow - 1 = r
  case neg =>
    rw [getD_set_ne _ _ _ _ _ hcr]
    exact hz r p
  case pos =>
    subst hcr
    by_cases hl : crow - 1 < page.rows.length
    · rw [getD_set_self _ _ _ _ hl]
      dsimp only []
      by_cases hpc : ccol - 1 = p
      · subst hpc
        by_cases hpl : ccol - 1 <
            (page.rows.getD (crow - 1) emptyRow).double.length
        · exact getD_set_self _ _ _ _ hpl
        · rw [List.set_eq_of_length_le
            (show (page.rows.getD (crow - 1) emptyRow).double.length ≤
              ccol - 1 by omega)]
          exact hz _ _
      · rw [getD_set_ne _ _ _ _ _ hpc]
        exact hz _ _
    · rw [List.set_eq_of_length_le (by omega)]
      exact hz _ _

/-- A sequence of `put_char_attr` calls
`(crow, ccol, c, cattr, one_only, force)` applied to a page. -/
def applyCalls (page : TextPage) :
    List (Nat × Nat × Nat × Nat × Bool × Bool) → TextPage
  | [] => page
  | call :: rest =>
    applyCalls (putCharAttr page call.1 call.2.1 call.2.2.1 call.2.2.2.1
      call.2.2.2.2.1 call.2.2.2.2.2).1 rest

theorem applyCalls_paired :
    ∀ (calls : List (Nat × Nat × Nat × Nat × Bool × Bool)) (page : TextPage),
    page.codepage.boxProtect = false →
    (page.codepage.dbcs && page.doDbcs) = true →
    (∀ call ∈ calls, 1 ≤ call.2.1 ∧ call.2.1 ≤ page.width) →
    (∀ r, r < page.rows.length →
      rowPaired page.codepage page.width (page.rows.getD r emptyRow)) →
    ∀ r, r < (applyCalls page calls).rows.length →
      rowPaired page.codepage page.width
        ((applyCalls page calls).rows.getD r emptyRow) := by
  intro calls
  induction calls with
  | nil => intro page _ _ _ hinv r hr; exact hinv r hr
  | cons call rest ih =>
    intro page hbox hflag hcalls hinv r hr
    unfold applyCalls at hr ⊢
    have hf := putCharAttr_fields page call.1 call.2.1 call.2.2.1
      call.2.2.2.1 call.2.2.2.2.1 call.2.2.2.2.2
    have hcall := hcalls call (by simp)
    have hnew := putCharAttr_rowPaired page hbox hflag call.1 call.2.1
      call.2.2.1 call.2.2.2.1 call.2.2.2.2.1 call.2.2.2.2.2 hcall.1 hcall.2
      hinv
    have hres := ih (putCharAttr page call.1 call.2.1 call.2.2.1 call.2.2.2.1
        call.2.2.2.2.1 call.2.2.2.2.2).1
      (by rw [hf.2.1]; exact hbox)
      (by rw [hf.2.1, hf.2.2]; exact hflag)
      (by intro call2 h2
          rw [hf.1]
          exact hcalls call2 (by simp [h2]))
      (by intro r2 hr2
          rw [hf.1, hf.2.1]
          exact hnew r2 hr2)
      r hr
    rw [hf.1, hf.2.1] at hres
    exact hres

theorem applyCalls_zero :
    ∀ (calls : List (Nat × Nat × Nat × Nat × Bool × Bool)) (page : TextPage),
    (page.codepage.dbcs && page.doDbcs) = false →
    (∀ r p, (page.rows.getD r emptyRow).double.getD p 0 = 0) →
    ∀ r p, ((applyCalls page calls).rows.getD r emptyRow).double.getD p 0
      = 0 := by
  intro calls
  induction calls with
  | nil => intro page _ hz r p; exact hz r p
  | cons call rest ih =>
    intro page hflag hz r p
    unfold applyCalls
    have hf := putCharAttr_fields page call.1 call.2.1 call.2.2.1
      call.2.2.2.1 call.2.2.2.2.1 call.2.2.2.2.2
    exact ih (putCharAttr page call.1 call.2.1 call.2.2.1 call.2.2.2.1
        call.2.2.2.2.1 call.2.2.2.2.2).1
      (by rw [hf.2.1, hf.2.2]; exact hflag)
      (putCharAttr_zero page hflag call.1 call.2.1 call.2.2.1 call.2.2.2.1
        call.2.2.2.2.1 call.2.2.2.2.2 hz)
      r p

theorem getD_replicate_lt {a d : α} {n r : Nat} (h : r < n) :
    (List.replicate n a).getD r d = a := by
  simp [List.getD_eq_getElem?_getD, List.getElem?_replicate, h]

theorem getD_replicate_zero (n p : Nat) :
    (List.replicate n (0 : Nat)).getD p 0 = 0 := by
  by_cases hp : p < n
  · exact getD_replicate_lt hp
  · rw [List.getD_eq_getElem?_getD,
      List.getElem?_eq_none (by rw [List.length_replicate]; omega)]
    rfl

theorem fresh_rowPaired (battr bwidth bheight pagenum : Nat) (doDbcs : Bool)
    (cp : Codepage) :
    ∀ r, r < (TextPage.fresh battr bwidth bheight pagenum doDbcs
        cp).rows.length →
      rowPaired cp bwidth ((TextPage.fresh battr bwidth bheight pagenum doDbcs
        cp).rows.getD r emptyRow) := by
  intro r hr
  unfold TextPage.fresh at hr ⊢
  dsimp only [] at hr ⊢
  rw [List.length_replicate] at hr
  rw [getD_replicate_lt hr]
  unfold TextRow.fresh
  refine ⟨by rw [List.length_replicate], ?_, ?_⟩
  · intro p hp
    rw [getD_replicate_zero] at hp
    exact absurd hp (by omega)
  · intro p hp
    rw [getD_replicate_zero] at hp
    exact absurd hp (by omega)

theorem fresh_zero (battr bwidth bheight pagenum : Nat) (doDbcs : Bool)
    (cp : Codepage) :
    ∀ r p, ((TextPage.fresh battr bwidth bheight pagenum doDbcs
      cp).rows.getD r emptyRow).double.getD p 0 = 0 := by
  intro r p
  unfold TextPage.fresh
  dsimp only []
  by_cases hr : r < bheight
  · rw [getD_replicate_lt hr]
    exact getD_replicate_zero _ _
  · have hrow : (List.replicate bheight (TextRow.fresh battr bwidth)).getD r
        emptyRow = emptyRow := by
      rw [List.getD_eq_getElem?_getD,
        List.getElem?_eq_none (by rw [List.length_replicate]; omega)]
      rfl
    rw [hrow]
    rfl

end TextModel

namespace TextModel

/-- A double-byte codepage for concrete instances: byte 1 is the only lead
byte, byte 2 the only trail byte, box protection off. -/
def twoByteCodepage : Codepage :=
  ⟨true, fun b => b == 1, fun b => b == 2, false, fun _ _ _ => false⟩

/-- C2 (amended): starting from a fresh page, after any sequence of
`put_char_attr` calls with box protection off and in-range columns, every
lead marker (value 1) in every row's double-width marker array is
immediately followed by a trail marker (value 2) in the same row — no
orphaned lead marker ever exists.  (Orphaned trail markers can exist; see
the counterexample.) -/
theorem c2_no_orphan_lead (battr bwidth bheight pagenum : Nat)
    (doDbcs : Bool) (cp : Codepage) (hbox : cp.boxProtect = false)
    (calls : List (Nat × Nat × Nat × Nat × Bool × Bool))
    (hcalls : ∀ call ∈ calls, 1 ≤ call.2.1 ∧ call.2.1 ≤ bwidth) :
    ∀ r p,
      ((applyCalls (TextPage.fresh battr bwidth bheight pagenum doDbcs cp)
        calls).rows.getD r emptyRow).double.getD p 0 = 1 →
      ((applyCalls (TextPage.fresh battr bwidth bheight pagenum doDbcs cp)
        calls).rows.getD r emptyRow).double.getD (p + 1) 0 = 2 := by
  intro r p hp
  by_cases hflag : (cp.dbcs && doDbcs) = true
  · by_cases hr : r < (applyCalls (TextPage.fresh battr bwidth bheight
        pagenum doDbcs cp) calls).rows.length
    · exact (applyCalls_paired calls
        (TextPage.fresh battr bwidth bheight pagenum doDbcs cp) hbox hflag
        hcalls (fresh_rowPaired battr bwidth bheight pagenum doDbcs cp)
        r hr).2.2 p hp
    · have hrow : (applyCalls (TextPage.fresh battr bwidth bheight pagenum
          doDbcs cp) calls).rows.getD r emptyRow = emptyRow := by
        rw [List.getD_eq_getElem?_getD, List.getElem?_eq_none (by omega)]
        rfl
      rw [hrow] at hp
      exact absurd hp (by simp [emptyRow])
  · have hflag2 : (cp.dbcs && doDbcs) = false := by
      rcases Bool.eq_false_or_eq_true (cp.dbcs && doDbcs) with h | h
      · exact absurd h hflag
      · exact h
    have hz := applyCalls_zero calls
      (TextPage.fresh battr bwidth bheight pagenum doDbcs cp) hflag2
      (fresh_zero battr bwidth bheight pagenum doDbcs cp)
    rw [hz r p] at hp
    exact absurd hp (by omega)

/-- Counterexample to C2 as stated: on a fresh 2-column DBCS page, writing
the lead byte at column 1, the trail byte at column 2 (forming the marked
pair 1,2), then a trail byte over column 1 zeroes the lead marker and, on
rescan, stops at column 1 (`lead(trail-byte)` fails and the loop exits
without reaching column 2), leaving the marker array [0, 2]: an orphaned
trail marker not preceded by a lead marker.  All characters written are
lead or trail bytes of the active codepage. -/
theorem c2_orphan_trail_counterexample :
    ((applyCalls (TextPage.fresh 7 2 1 0 true twoByteCodepage)
        [(1, 1, 1, 7, false, false), (1, 2, 2, 7, false, false),
         (1, 1, 2, 7, false, false)]).rows.getD 0 emptyRow).double.getD 1 0
      = 2 ∧
    ((applyCalls (TextPage.fresh 7 2 1 0 true twoByteCodepage)
        [(1, 1, 1, 7, false, false), (1, 2, 2, 7, false, false),
         (1, 1, 2, 7, false, false)]).rows.getD 0 emptyRow).double.getD 0 0
      ≠ 1 := by
  constructor <;>
    simp +decide [applyCalls, putCharAttr, dbcsScan, twoByteCodepage,
      TextPage.fresh, TextRow.fresh, emptyRow, List.replicate]

/-- Witness for C2 at a concrete page, codepage and call list. -/
theorem c2_no_orphan_lead_witness :
    twoByteCodepage.boxProtect = false ∧
    (∀ call ∈ ([(1, 1, 1, 7, false, false)] :
        List (Nat × Nat × Nat × Nat × Bool × Bool)),
      1 ≤ call.2.1 ∧ call.2.1 ≤ 2) ∧
    (∀ r p,
      ((applyCalls (TextPage.fresh 7 2 1 0 true twoByteCodepage)
        [(1, 1, 1, 7, false, false)]).rows.getD r emptyRow).double.getD p 0
        = 1 →
      ((applyCalls (TextPage.fresh 7 2 1 0 true twoByteCodepage)
        [(1, 1, 1, 7, false, false)]).rows.getD r emptyRow).double.getD
          (p + 1) 0 = 2) :=
  ⟨rfl, by decide,
   c2_no_orphan_lead 7 2 1 0 true twoByteCodepage rfl _ (by decide)⟩

end TextModel
